import Mathlib

/-!
Shallow embedding of the `opus-mux` crate: an incremental demultiplexer that
extracts Opus packets from an Ogg container.

* `src/ogg.rs` — the page scanner / packet reassembler (`Stream`, `Page`,
  `Reader`, `fill`) is translated directly below.  Byte buffers (`VecDeque<u8>`,
  `Vec<u8>`) become `List Nat`; `usize` arithmetic becomes `Nat` (with the
  saturating additions made explicit); `VecDeque::drain(..n)` becomes
  `List.drop n` (the Rust call panics when `n` exceeds the length; every run
  studied here keeps `n` within bounds).
* `src/lib.rs` — the `Demuxer` state machine (`push`, `header`, `tags`,
  `next`) is translated directly below on top of the page layer.  `lib.rs`
  obtains pages through the external `ogg` crate's
  `BasePacketReader`/`PageParser`, which are not sources of this repository;
  that layer is modelled by this repository's own `src/ogg.rs`
  `Stream`/`Page` implementation of the same interface (the glue is marked
  `Modelled from the spec:` where it goes beyond the sources).
-/

namespace OpusMux

/-- `Reader::get::<N>` from src/ogg.rs: read `n` bytes at `cursor`, or `None`
when fewer are buffered. -/
def readAt (buf : List Nat) (cursor n : Nat) : Option (List Nat) :=
  if cursor + n ≤ buf.length then some ((buf.drop cursor).take n) else none

/-- Little-endian byte-list decoding (`uXX::from_le_bytes`). -/
def leNat : List Nat → Nat
  | [] => 0
  | b :: rest => b + 256 * leNat rest

/-- `i16::from_le_bytes` result as a mathematical integer. -/
def toI16 (n : Nat) : Int := if n < 32768 then (n : Int) else (n : Int) - 65536

/-- `usize::MAX` on the (64-bit) targets the crate builds for. -/
def usizeMax : Nat := 2 ^ 64 - 1

/-- `usize::saturating_add`. -/
def satAdd (a b : Nat) : Nat := min (a + b) usizeMax

/-- The saturating cumulative sum of the lacing values, as the spec's section
4.3 describes the payload-length computation ("sum, saturating"); the
value-by-value saturating accumulation appears in `Page::next_inner`
(src/ogg.rs line 194), while `Stream::next` (line 87-91) folds the plain
`usize` sum. -/
def satSum (l : List Nat) : Nat := l.foldl satAdd 0

/-- The page capture pattern `b"OggS"` (src/ogg.rs line 37). -/
def oggSMagic : List Nat := [0x4F, 0x67, 0x67, 0x53]

/-- `PageHeader` from src/ogg.rs. -/
structure PageHeader where
  bos : Bool
  eos : Bool
  granule_position : Nat
  stream_serial : Nat
  sequence : Nat
  checksum : Nat
deriving Repr, DecidableEq

/-- `Stream` from src/ogg.rs: staging buffer, per-serial reassembly buffers,
segment-table position, packet start offset, and the (single, global)
continuation flag. -/
structure Stream where
  buffer : List Nat
  stream_packets : List (Nat × List Nat)
  segment : Nat
  packet_start : Nat
  packet_continued : Bool
deriving Repr, DecidableEq

def Stream.new : Stream :=
  { buffer := [], stream_packets := [], segment := 0, packet_start := 0,
    packet_continued := false }

/-- `Stream::push`. -/
def Stream.push (s : Stream) (data : List Nat) : Stream :=
  { s with buffer := s.buffer ++ data }

/-- `Vec::swap_remove i`: replace index `i` with the last element and drop the
last slot. -/
def swapRemove (l : List (Nat × List Nat)) (i : Nat) : List (Nat × List Nat) :=
  match l.getLast? with
  | none => l
  | some last => (l.set i last).dropLast

/-- `Vec::clear` on the buffer at index `i`. -/
def clearAt (l : List (Nat × List Nat)) (i : Nat) : List (Nat × List Nat) :=
  match l.get? i with
  | none => l
  | some e => l.set i (e.1, [])

/-- Outcome of the pure reads in src/ogg.rs lines 36-58: not enough bytes, a
capture-pattern mismatch, a matched pattern with a non-zero version byte, or a
fully parsed fixed header. -/
inductive ScanOutcome where
  | short
  | resync1
  | resync5
  | header (continued : Bool) (hdr : PageHeader) (segment_count : Nat)
deriving Repr, DecidableEq

/-- The fixed-header reads of `Stream::next` (src/ogg.rs lines 36-58), which
mutate nothing: they either fail for lack of bytes, reject the candidate
(mismatch / bad version), or produce the parsed fields. -/
def scanPage (buf : List Nat) : ScanOutcome :=
  match readAt buf 0 4 with
  | none => .short
  | some w =>
    if w ≠ oggSMagic then .resync1
    else
      match readAt buf 4 1 with
      | none => .short
      | some v =>
        if v ≠ [0] then .resync5
        else
          match readAt buf 5 1 with
          | none => .short
          | some fl =>
            match readAt buf 6 8 with
            | none => .short
            | some gp =>
              match readAt buf 14 4 with
              | none => .short
              | some ser =>
                match readAt buf 18 4 with
                | none => .short
                | some sq =>
                  match readAt buf 22 4 with
                  | none => .short
                  | some ck =>
                    match readAt buf 26 1 with
                    | none => .short
                    | some sc =>
                      .header ((fl.headI &&& 1) != 0)
                        { bos := (fl.headI &&& 2) != 0
                          eos := (fl.headI &&& 4) != 0
                          granule_position := leNat gp
                          stream_serial := leNat ser
                          sequence := leNat sq
                          checksum := leNat ck }
                        sc.headI

/-- Number of segments consumed by the tail-without-head skip loop
(src/ogg.rs lines 105-111): all leading `255` lacing values plus the
terminating value `< 255` when one exists. -/
def skipCount : List Nat → Nat
  | [] => 0
  | l :: rest => if l ≠ 255 then 1 else 1 + skipCount rest

/-- The data `Page` carries besides its reference to the `Stream`
(src/ogg.rs lines 137-142): segment count, lacing values, parsed header. -/
structure PageCtx where
  segment_count : Nat
  segments : List Nat
  header : PageHeader
deriving Repr, DecidableEq

/-- `Stream::next` (src/ogg.rs lines 29-134).  The Rust method mutates `self`
in place, so the state reached when it returns `None` (resynchronization
drops, page drains, eos removals) persists: the model returns the updated
`Stream` alongside the optional page.  The Rust `loop` is expressed with
explicit fuel because the source genuinely fails to terminate on some inputs
(a page with `segment_count = 0` and `packet_start = 0` repeats the drain
branch without consuming bytes); running out of fuel yields `none`, just like
an insufficient buffer. -/
def Stream.next : Nat → Stream → Option PageCtx × Stream
  | 0, s => (none, s)
  | fuel + 1, s =>
    match scanPage s.buffer with
    | .short => (none, s)
    | .resync1 => Stream.next fuel { s with buffer := s.buffer.drop 1 }
    | .resync5 => Stream.next fuel { s with buffer := s.buffer.drop 5 }
    | .header continued hdr segment_count =>
      if s.segment = segment_count then
        -- lines 60-74: the previous page is fully delivered; drain its bytes
        -- and, on eos, free the finished logical stream's buffer entry
        let s1 : Stream := { s with segment := 0, buffer := s.buffer.drop s.packet_start }
        let s2 : Stream :=
          if hdr.eos then
            match s1.stream_packets.findIdx? (fun e => e.1 == hdr.stream_serial) with
            | some i => { s1 with stream_packets := swapRemove s1.stream_packets i }
            | none => s1
          else s1
        Stream.next fuel s2
      else if 27 + segment_count > s.buffer.length then (none, s)
      else
        let segments := (s.buffer.drop 27).take segment_count
        let payload_len := segments.sum
        if 27 + segment_count + payload_len > s.buffer.length then (none, s)
        else
          let s' :=
            if s.segment = 0 then
              -- lines 95-118: record the payload start and recover from
              -- orphaned fragments
              let s0 : Stream := { s with packet_start := 27 + segment_count }
              match s0.stream_packets.findIdx? (fun e => e.1 == hdr.stream_serial) with
              | none => s0
              | some i =>
                let entry := (s0.stream_packets.getD i (0, [])).2
                let s1 :=
                  if continued && entry.isEmpty then
                    -- tail without head
                    let k := skipCount segments
                    { s0 with packet_start := s0.packet_start + (segments.take k).sum
                              segment := s0.segment + k }
                  else s0
                if !continued && !entry.isEmpty then
                  -- head without tail
                  { s1 with stream_packets := clearAt s1.stream_packets i }
                else s1
            else s
          (some { segment_count := segment_count, segments := segments, header := hdr }, s')

/-- `fill` from src/ogg.rs lines 250-262, for the contiguous `List` model of
the deque: fail when the range end exceeds the buffer, otherwise append the
window to `out`. -/
def fill (buffer : List Nat) (start stop : Nat) (out : List Nat) : Option (List Nat) :=
  if stop > buffer.length then none
  else some (out ++ (buffer.drop start).take (stop - start))

/-- The segment walk of `Page::next_inner` (src/ogg.rs lines 188-199):
starting from accumulated length `acc`, saturating-add lacing values until the
first value `< 255`.  Returns (packet data length, segments consumed, whether
the packet is still continued). -/
def walkSegsAux : List Nat → Nat → Nat × Nat × Bool
  | [], acc => (acc, 0, true)
  | l :: rest, acc =>
    let acc' := satAdd acc l
    if l < 255 then (acc', 1, false)
    else
      let r := walkSegsAux rest acc'
      (r.1, r.2.1 + 1, r.2.2)

/-- The entry lookup of `Page::next_inner` (src/ogg.rs lines 167-181): the
index of the serial's buffer entry, creating an empty one at the end when
absent. -/
def findOrCreate (serial : Nat) (l : List (Nat × List Nat)) :
    Nat × List (Nat × List Nat) :=
  match l.findIdx? (fun e => e.1 == serial) with
  | some i => (i, l)
  | none => (l.length, l ++ [(serial, [])])

/-- `Page::next_inner` (src/ogg.rs lines 162-216): locate or create the
serial's buffer entry, clear it when no packet is open, append the segment
window, and deliver the entry's data when a terminating segment was seen. -/
def nextInner (p : PageCtx) (s : Stream) : Option (List Nat) × Stream :=
  if p.segment_count ≤ s.segment then (none, s)
  else
    let fc := findOrCreate p.header.stream_serial s.stream_packets
    let sp1 := if !s.packet_continued then clearAt fc.2 fc.1 else fc.2
    let w := walkSegsAux (p.segments.drop s.segment) 0
    let packet_end := s.packet_start + w.1
    match fill s.buffer s.packet_start packet_end (sp1.getD fc.1 (0, [])).2 with
    | none => (none, { s with stream_packets := sp1, packet_continued := w.2.2 })
    | some data =>
      let sp2 := sp1.set fc.1 (p.header.stream_serial, data)
      let s' := { s with stream_packets := sp2, packet_continued := w.2.2,
                         packet_start := packet_end, segment := s.segment + w.2.1 }
      (if w.2.2 then none else some data, s')

/-- The `while let Some(pkt) = page.next()` drain of one page, as performed by
the demuxer driver; `segment_count + 1` rounds of `next_inner` always suffice
because each successful round consumes at least one segment. -/
def drainPage : Nat → PageCtx → Stream → List (List Nat) × Stream
  | 0, _, s => ([], s)
  | f + 1, p, s =>
    match nextInner p s with
    | (none, s') => ([], s')
    | (some d, s') =>
      let r := drainPage f p s'
      (d :: r.1, r.2)

/-- A reassembled packet as the demuxer sees it (the external crate's
`ogg::Packet`): owning serial, first-in-stream flag, payload bytes. -/
structure Packet where
  serial : Nat
  first_in_stream : Bool
  data : List Nat
deriving Repr, DecidableEq

/-- Modelled from the spec: `lib.rs` reads packets from the external `ogg`
crate's `BasePacketReader`, which is not among this repository's sources; the
packets of one page are produced here by this repository's own `src/ogg.rs`
reassembler, and a packet is flagged first-in-stream when it is the first
packet delivered from a page whose `bos` flag is set (spec section 4.5: "the
first packet of its logical stream (bos page)"). -/
def pagePackets (p : PageCtx) (s : Stream) : List Packet × Stream :=
  let r := drainPage (p.segment_count + 1) p s
  (r.1.enum.map (fun e =>
      { serial := p.header.stream_serial
        first_in_stream := p.header.bos && e.1 == 0
        data := e.2 }),
    r.2)

/-- Modelled from the spec: the page-pull loop of `Demuxer::push`
(src/lib.rs lines 46-87), which repeatedly turns buffered bytes into pages and
queues every packet the pages complete, stopping when no further page is
available.  Fuel bounds the page count; one unit of buffer length per page is
always enough. -/
def drivePages : Nat → Stream → List Packet × Stream
  | 0, s => ([], s)
  | f + 1, s =>
    match Stream.next (s.buffer.length + 1) s with
    | (none, s') => ([], s')
    | (some p, s') =>
      let q := pagePackets p s'
      let r := drivePages f q.2
      (q.1 ++ r.1, r.2)

/-- `Header` from src/lib.rs. -/
structure Header where
  serial : Nat
  channels : Nat
  pre_skip : Nat
  output_gain : Int
deriving Repr, DecidableEq

/-- How a `push` call can abort: `Error::Malformed` (the only `Error`
variant, src/lib.rs lines 192-195), or the Rust panic raised by the
out-of-bounds index `packet.data[9]` on src/lib.rs line 106, which is not an
`Error` value at all. -/
inductive PushErr where
  | malformed
  | panicked
deriving Repr, DecidableEq

/-- `b"OpusHead"` (src/lib.rs line 91). -/
def opusHeadMagic : List Nat := [0x4F, 0x70, 0x75, 0x73, 0x48, 0x65, 0x61, 0x64]

/-- `b"OpusTags"` (src/lib.rs line 130). -/
def opusTagsMagic : List Nat := [0x4F, 0x70, 0x75, 0x73, 0x54, 0x61, 0x67, 0x73]

/-- The header-recognition loop of `Demuxer::push` (src/lib.rs lines 90-127):
consume queued packets until a first-in-stream packet carries a v1-compatible
identification header; parse `channels` (a panicking index), `pre_skip` and
`output_gain` (checked reads).  Returns (error?, parsed header?, remaining
queue). -/
def seekHeader : List Packet → Option PushErr × Option Header × List Packet
  | [] => (none, none, [])
  | pkt :: rest =>
    if !pkt.first_in_stream then seekHeader rest
    else if !(opusHeadMagic.isPrefixOf pkt.data) then seekHeader rest
    else
      match pkt.data.get? 8 with
      | none => (some .malformed, none, rest)
      | some v =>
        if v &&& 0xF0 ≠ 0 then seekHeader rest
        else
          match pkt.data.get? 9 with
          | none => (some .panicked, none, rest)
          | some ch =>
            match pkt.data.get? 10, pkt.data.get? 11 with
            | some b10, some b11 =>
              (match pkt.data.get? 16, pkt.data.get? 17 with
               | some b16, some b17 =>
                 (none,
                  some { serial := pkt.serial, channels := ch,
                         pre_skip := b10 + 256 * b11,
                         output_gain := toI16 (b16 + 256 * b17) },
                  rest)
               | _, _ => (some .malformed, none, rest))
            | _, _ => (some .malformed, none, rest)

/-- The tags-recognition loop of `Demuxer::push` (src/lib.rs lines 129-144):
consume queued packets, dropping those of other serials and those of the
recorded serial that do not begin with the comment magic, until one matches;
it becomes the stored tags packet. -/
def seekTags (serial : Nat) : List Packet → Option Packet × List Packet
  | [] => (none, [])
  | pkt :: rest =>
    if pkt.serial ≠ serial then seekTags serial rest
    else if opusTagsMagic.isPrefixOf pkt.data then (some pkt, rest)
    else seekTags serial rest

/-- `Demuxer` from src/lib.rs (page-decoding state folded into `Stream`, the
pending reassembled packets into `queue`). -/
structure Demuxer where
  stream : Stream
  queue : List Packet
  header : Option Header
  tags : Option Packet
deriving Repr, DecidableEq

/-- `Demuxer::new`. -/
def Demuxer.new : Demuxer :=
  { stream := Stream.new, queue := [], header := none, tags := none }

/-- The `if self.tags.is_none()` block of `Demuxer::push`
(src/lib.rs lines 129-144). -/
def pushTags (h : Header) (d : Demuxer) : Option PushErr × Demuxer :=
  match d.tags with
  | some _ => (none, d)
  | none =>
    match seekTags h.serial d.queue with
    | (some t, rest) => (none, { d with tags := some t, queue := rest })
    | (none, rest) => (none, { d with queue := rest })

/-- `Demuxer::push` (src/lib.rs lines 43-147): append the chunk, pull every
available page into queued packets, then run the header- and
tags-recognition loops.  `none` in the first component is `Ok(())`. -/
def Demuxer.push (d : Demuxer) (data : List Nat) : Option PushErr × Demuxer :=
  let st0 := d.stream.push data
  let dr := drivePages (st0.buffer.length + 1) st0
  let d1 : Demuxer := { d with stream := dr.2, queue := d.queue ++ dr.1 }
  match d1.header with
  | some h => pushTags h d1
  | none =>
    match seekHeader d1.queue with
    | (some e, _, rest) => (some e, { d1 with queue := rest })
    | (none, some h, rest) => pushTags h { d1 with queue := rest, header := some h }
    | (none, none, rest) => (none, { d1 with queue := rest })

/-- The packet-pull loop of `Demuxer::next` (src/lib.rs lines 165-171):
drop queued packets of other serials until one of the recorded serial is
found. -/
def nextLoop (serial : Nat) : List Packet → Option (List Nat) × List Packet
  | [] => (none, [])
  | pkt :: rest =>
    if pkt.serial ≠ serial then nextLoop serial rest else (some pkt.data, rest)

/-- `Demuxer::next` (src/lib.rs lines 161-172). -/
def Demuxer.next (d : Demuxer) : Option (List Nat) × Demuxer :=
  match d.header, d.tags with
  | some h, some _ =>
    let r := nextLoop h.serial d.queue
    (r.1, { d with queue := r.2 })
  | _, _ => (none, d)

/-- `Demuxer::tags` (src/lib.rs lines 155-157). -/
def Demuxer.tagsData (d : Demuxer) : Option (List Nat) := d.tags.map (fun p => p.data)

/-- A raw page image: capture pattern, version 0, flags, granule position,
serial, sequence, checksum, segment count, lacing values, payload (spec
section 6). -/
def mkPage (flags : Nat) (granule serial4 seq4 chk4 lacing payload : List Nat) :
    List Nat :=
  oggSMagic ++ [0] ++ [flags] ++ granule ++ serial4 ++ seq4 ++ chk4 ++
    [lacing.length] ++ lacing ++ payload

/-- Eight zero bytes (a granule position of 0). -/
def z8 : List Nat := List.replicate 8 0

/-! ### Basic lemmas about the embedded definitions -/

lemma scanPage_resync1 {buf : List Nat} (h4 : 4 ≤ buf.length)
    (hm : buf.take 4 ≠ oggSMagic) : scanPage buf = .resync1 := by
  have h : 0 + 4 ≤ buf.length := by omega
  simp [scanPage, readAt, h, List.drop_zero, hm]

lemma getD_take_one {buf : List Nat} {j : Nat} (h : j < buf.length) :
    (buf.drop j).take 1 = [buf.getD j 0] := by
  rw [List.take_one, List.head?_drop]
  simp [List.getD, List.getElem?_eq_getElem h]

lemma scanPage_resync5 {buf : List Nat} (h5 : 5 ≤ buf.length)
    (hm : buf.take 4 = oggSMagic) (hv : buf.getD 4 0 ≠ 0) :
    scanPage buf = .resync5 := by
  have h : 0 + 4 ≤ buf.length := by omega
  have h4 : 4 + 1 ≤ buf.length := by omega
  have h4' : (4 : Nat) < buf.length := by omega
  have hv' : buf[4]?.getD 0 ≠ 0 := by simpa [List.getD] using hv
  simp [scanPage, readAt, h, h4, List.drop_zero, hm, getD_take_one h4', List.getD, hv']

/-- The one-step unfolding of `Stream.next` at positive fuel. -/
lemma stream_next_succ (f : Nat) (s : Stream) :
    Stream.next (f + 1) s =
      match scanPage s.buffer with
      | .short => (none, s)
      | .resync1 => Stream.next f { s with buffer := s.buffer.drop 1 }
      | .resync5 => Stream.next f { s with buffer := s.buffer.drop 5 }
      | .header continued hdr segment_count =>
        if s.segment = segment_count then
          let s1 : Stream := { s with segment := 0, buffer := s.buffer.drop s.packet_start }
          let s2 : Stream :=
            if hdr.eos then
              match s1.stream_packets.findIdx? (fun e => e.1 == hdr.stream_serial) with
              | some i => { s1 with stream_packets := swapRemove s1.stream_packets i }
              | none => s1
            else s1
          Stream.next f s2
        else if 27 + segment_count > s.buffer.length then (none, s)
        else
          let segments := (s.buffer.drop 27).take segment_count
          let payload_len := segments.sum
          if 27 + segment_count + payload_len > s.buffer.length then (none, s)
          else
            let s' :=
              if s.segment = 0 then
                let s0 : Stream := { s with packet_start := 27 + segment_count }
                match s0.stream_packets.findIdx? (fun e => e.1 == hdr.stream_serial) with
                | none => s0
                | some i =>
                  let entry := (s0.stream_packets.getD i (0, [])).2
                  let s1 :=
                    if continued && entry.isEmpty then
                      let k := skipCount segments
                      { s0 with packet_start := s0.packet_start + (segments.take k).sum
                                segment := s0.segment + k }
                    else s0
                  if !continued && !entry.isEmpty then
                    { s1 with stream_packets := clearAt s1.stream_packets i }
                  else s1
              else s
            (some { segment_count := segment_count, segments := segments, header := hdr },
              s') := by
  rfl

lemma satAdd_eq_add {a b : Nat} (h : a + b ≤ usizeMax) : satAdd a b = a + b :=
  min_eq_left h

lemma walkSegsAux_sum (l : List Nat) :
    ∀ acc, acc + l.sum ≤ usizeMax →
      (walkSegsAux l acc).1 = acc + (l.take (walkSegsAux l acc).2.1).sum := by
  induction l with
  | nil => intro acc h; simp [walkSegsAux]
  | cons x xs ih =>
    intro acc h
    have hx : acc + x ≤ usizeMax := by
      simp only [List.sum_cons] at h
      omega
    by_cases hlt : x < 255
    · simp [walkSegsAux, hlt, satAdd_eq_add hx]
    · have h' : (acc + x) + xs.sum ≤ usizeMax := by simp only [List.sum_cons] at h; omega
      have := ih (acc + x) h'
      simp [walkSegsAux, hlt, satAdd_eq_add hx, this]
      ring

lemma sum_le_of_all_le {l : List Nat} {n : Nat} (h : ∀ x ∈ l, x ≤ n) :
    l.sum ≤ l.length * n := by
  induction l with
  | nil => simp
  | cons x xs ih =>
    simp only [List.sum_cons, List.length_cons]
    have := ih (fun y hy => h y (List.mem_cons_of_mem _ hy))
    have hx := h x (List.mem_cons_self _ _)
    nlinarith

lemma foldl_satAdd (l : List Nat) :
    ∀ acc, acc + l.sum ≤ usizeMax → l.foldl satAdd acc = acc + l.sum := by
  induction l with
  | nil => intro acc h; simp
  | cons x xs ih =>
    intro acc h
    simp only [List.sum_cons] at h
    simp only [List.foldl_cons]
    rw [satAdd_eq_add (by omega), ih (acc + x) (by omega), List.sum_cons]
    omega

lemma skipCount_eq_takeWhile (l : List Nat) (h : ∃ v ∈ l, v ≠ 255) :
    skipCount l = (l.takeWhile (fun v => v == 255)).length + 1 := by
  induction l with
  | nil => simp at h
  | cons x xs ih =>
    by_cases hx : x = 255
    · subst hx
      have h' : ∃ v ∈ xs, v ≠ 255 := by
        obtain ⟨v, hv, hne⟩ := h
        rcases List.mem_cons.mp hv with rfl | hmem
        · exact absurd rfl hne
        · exact ⟨v, hmem, hne⟩
      simp [skipCount, List.takeWhile, ih h']
      omega
    · have hb : (x == 255) = false := by simp [hx]
      simp [skipCount, hx, List.takeWhile, hb]

lemma swapRemove_not_mem {l : List (Nat × List Nat)} {i : Nat} {serial : Nat}
    (hnd : (l.map Prod.fst).Nodup)
    (hfind : l.findIdx? (fun e => e.1 == serial) = some i) :
    serial ∉ (swapRemove l i).map Prod.fst := by
  obtain ⟨hi, hpi, hprev⟩ := List.findIdx?_eq_some_iff_getElem.mp hfind
  have hiv : (l[i]).1 = serial := by simpa using hpi
  have huniq : ∀ j (hj : j < l.length), (l[j]).1 = serial → j = i := by
    intro j hj hv
    have hj2 : j < (l.map Prod.fst).length := by simpa using hj
    have hi2 : i < (l.map Prod.fst).length := by simpa using hi
    have hmap : (l.map Prod.fst)[j] = (l.map Prod.fst)[i] := by
      simp [hv, hiv]
    exact hnd.getElem_inj_iff.mp hmap
  intro hmem
  rw [List.mem_map] at hmem
  obtain ⟨e, he, hes⟩ := hmem
  have hne : l ≠ [] := List.ne_nil_of_length_pos (by omega)
  obtain ⟨last, hlast⟩ : ∃ last, l.getLast? = some last := by
    cases hq : l.getLast? with
    | none => exact absurd (List.getLast?_eq_none_iff.mp hq) hne
    | some v => exact ⟨v, rfl⟩
  rw [swapRemove, hlast] at he
  obtain ⟨j, hj, hje⟩ := List.mem_iff_getElem.mp he
  have hjlen : j < l.length - 1 := by simpa using hj
  rw [List.getElem_dropLast] at hje
  by_cases hij : i = j
  · subst hij
    have hlb : l.length - 1 < l.length := by omega
    have hlastval : last = l[l.length - 1] := by
      rw [List.getLast?_eq_getElem?] at hlast
      have := List.getElem?_eq_getElem (l := l) (n := l.length - 1) (by omega)
      rw [this] at hlast
      exact (Option.some.injEq _ _ ▸ hlast).symm
    have : e = last := by
      rw [← hje]
      simp [List.getElem_set]
    rw [this, hlastval] at hes
    have := huniq (l.length - 1) (by omega) hes
    omega
  · have hjb : j < l.length := by omega
    have : e = l[j] := by
      rw [← hje]
      rw [List.getElem_set_ne hij]
    rw [this] at hes
    have := huniq j (by omega) hes
    omega

/-- One externally visible operation on a `Demuxer`: a `push` of a chunk or a
`next` packet pull. -/
inductive Op where
  | pushOp (data : List Nat)
  | nextOp

def applyOp (d : Demuxer) : Op → Demuxer
  | .pushOp data => (d.push data).2
  | .nextOp => (d.next).2

/-- The state reached from `d` after a sequence of `push`/`next` calls. -/
def applyOps (d : Demuxer) : List Op → Demuxer
  | [] => d
  | o :: rest => applyOps (applyOp d o) rest

lemma pushTags_result (h : Header) (d : Demuxer) :
    pushTags h d =
      match d.tags with
      | some _ => (none, d)
      | none =>
        match seekTags h.serial d.queue with
        | (some t, rest) => (none, { d with tags := some t, queue := rest })
        | (none, rest) => (none, { d with queue := rest }) := rfl

/-- The one-step unfolding of `Demuxer.push` with the intermediate record
fused. -/
lemma push_result (d : Demuxer) (data : List Nat) :
    d.push data =
      match d.header with
      | some h =>
        pushTags h
          { d with
              stream := (drivePages ((d.stream.push data).buffer.length + 1)
                (d.stream.push data)).2,
              queue := d.queue ++ (drivePages ((d.stream.push data).buffer.length + 1)
                (d.stream.push data)).1 }
      | none =>
        match seekHeader (d.queue ++ (drivePages ((d.stream.push data).buffer.length + 1)
            (d.stream.push data)).1) with
        | (some e, _, rest) =>
          (some e,
            { d with
                stream := (drivePages ((d.stream.push data).buffer.length + 1)
                  (d.stream.push data)).2,
                queue := rest })
        | (none, some h, rest) =>
          pushTags h
            { d with
                stream := (drivePages ((d.stream.push data).buffer.length + 1)
                  (d.stream.push data)).2,
                queue := rest, header := some h }
        | (none, none, rest) =>
          (none,
            { d with
                stream := (drivePages ((d.stream.push data).buffer.length + 1)
                  (d.stream.push data)).2,
                queue := rest }) := rfl

lemma pushTags_header_eq (h : Header) (d : Demuxer) :
    ((pushTags h d).2).header = d.header := by
  rw [pushTags_result]
  cases d.tags with
  | some t => rfl
  | none =>
    rcases hseek : seekTags h.serial d.queue with ⟨t?, rest⟩
    cases t? <;> simp [hseek]

lemma push_inv (d : Demuxer) (data : List Nat)
    (hinv : d.tags.isSome → d.header.isSome) :
    ((d.push data).2).tags.isSome → ((d.push data).2).header.isSome := by
  intro htg
  rw [push_result] at htg ⊢
  cases hh : d.header with
  | some h0 =>
    simp only [hh] at htg ⊢
    rw [pushTags_header_eq]
    simp
  | none =>
    have hnt : d.tags = none := by
      cases ht : d.tags with
      | none => rfl
      | some t => have := hinv (by simp [ht]); simp [hh] at this
    simp only [hh] at htg ⊢
    rcases hseek : seekHeader (d.queue ++ (drivePages ((d.stream.push data).buffer.length + 1)
        (d.stream.push data)).1) with ⟨e?, h?, rest⟩
    rcases e? with _ | e
    · rcases h? with _ | h
      · simp only [hseek] at htg ⊢
        simp [hnt] at htg
      · simp only [hseek] at htg ⊢
        rw [pushTags_header_eq]
        simp
    · simp only [hseek] at htg ⊢
      simp [hnt] at htg

lemma next_state (d : Demuxer) :
    ((d.next).2).header = d.header ∧ ((d.next).2).tags = d.tags := by
  unfold Demuxer.next
  cases hh : d.header with
  | none => simp [hh]
  | some h0 =>
    cases ht : d.tags with
    | none => simp [hh, ht]
    | some t => simp [hh, ht]

lemma seekTags_none_spec (serial : Nat) (q : List Packet) :
    (seekTags serial q).1 = none →
      (seekTags serial q).2 = [] ∧
      ∀ p ∈ q, ¬(p.serial = serial ∧ opusTagsMagic.isPrefixOf p.data) := by
  induction q with
  | nil => intro _; exact ⟨rfl, by simp⟩
  | cons pkt rest ih =>
    intro hnone
    by_cases hs : pkt.serial ≠ serial
    · have hred : seekTags serial (pkt :: rest) = seekTags serial rest := by
        simp [seekTags, hs]
      rw [hred] at hnone ⊢
      obtain ⟨h1, h2⟩ := ih hnone
      refine ⟨h1, ?_⟩
      intro p hp
      rcases List.mem_cons.mp hp with rfl | hmem
      · rintro ⟨hps, _⟩
        exact hs hps
      · exact h2 p hmem
    · push_neg at hs
      by_cases hm : opusTagsMagic.isPrefixOf pkt.data
      · exfalso
        have : seekTags serial (pkt :: rest) = (some pkt, rest) := by
          simp [seekTags, hs, hm]
        rw [this] at hnone
        simp at hnone
      · have hred : seekTags serial (pkt :: rest) = seekTags serial rest := by
          simp [seekTags, hs, hm]
        rw [hred] at hnone ⊢
        obtain ⟨h1, h2⟩ := ih hnone
        refine ⟨h1, ?_⟩
        intro p hp
        rcases List.mem_cons.mp hp with rfl | hmem
        · rintro ⟨_, hpm⟩
          exact hm hpm
        · exact h2 p hmem

lemma seekTags_some_spec (serial : Nat) (q : List Packet) :
    ∀ t, (seekTags serial q).1 = some t →
      t.serial = serial ∧ opusTagsMagic.isPrefixOf t.data ∧
      ∃ dropped, q = dropped ++ t :: (seekTags serial q).2 ∧
        ∀ p ∈ dropped, ¬(p.serial = serial ∧ opusTagsMagic.isPrefixOf p.data) := by
  induction q with
  | nil => intro t ht; simp [seekTags] at ht
  | cons pkt rest ih =>
    intro t ht
    by_cases hs : pkt.serial ≠ serial
    · have hred : seekTags serial (pkt :: rest) = seekTags serial rest := by
        simp [seekTags, hs]
      rw [hred] at ht ⊢
      obtain ⟨h1, h2, dropped, hq, hdrop⟩ := ih t ht
      refine ⟨h1, h2, pkt :: dropped, by rw [List.cons_append, ← hq], ?_⟩
      intro p hp
      rcases List.mem_cons.mp hp with rfl | hmem
      · rintro ⟨hps, _⟩; exact hs hps
      · exact hdrop p hmem
    · push_neg at hs
      by_cases hm : opusTagsMagic.isPrefixOf pkt.data
      · have heq : seekTags serial (pkt :: rest) = (some pkt, rest) := by
          simp [seekTags, hs, hm]
        rw [heq] at ht ⊢
        have hpt : pkt = t := by simpa using ht
        subst hpt
        exact ⟨hs, hm, [], by simp, by simp⟩
      · have hred : seekTags serial (pkt :: rest) = seekTags serial rest := by
          simp [seekTags, hs, hm]
        rw [hred] at ht ⊢
        obtain ⟨h1, h2, dropped, hq, hdrop⟩ := ih t ht
        refine ⟨h1, h2, pkt :: dropped, by rw [List.cons_append, ← hq], ?_⟩
        intro p hp
        rcases List.mem_cons.mp hp with rfl | hmem
        · rintro ⟨_, hpm⟩; exact hm hpm
        · exact hdrop p hmem

/-! ### Well-formed pages and their byte layout (for chunk-boundary
invariance) -/

/-- A structurally valid page, as the binary format of spec section 6
describes it. -/
structure PageImage where
  flags : Nat
  granule : List Nat
  serial4 : List Nat
  seq4 : List Nat
  chk4 : List Nat
  lacing : List Nat
  payload : List Nat

/-- The byte image of the page. -/
def PageImage.bytes (p : PageImage) : List Nat :=
  mkPage p.flags p.granule p.serial4 p.seq4 p.chk4 p.lacing p.payload

/-- Structural well-formedness: fixed field widths, 1..255 lacing values each
at most 255, and a payload of exactly the declared total length.  (The
scanner loops forever on a page with zero lacing values, so a well-formed
container is taken to have at least one per page.) -/
def PageImage.WF (p : PageImage) : Prop :=
  p.granule.length = 8 ∧ p.serial4.length = 4 ∧ p.seq4.length = 4 ∧
  p.chk4.length = 4 ∧ 1 ≤ p.lacing.length ∧ p.lacing.length ≤ 255 ∧
  (∀ v ∈ p.lacing, v ≤ 255) ∧ p.payload.length = p.lacing.sum

/-- The page's `continued` flag. -/
def PageImage.cont (p : PageImage) : Bool := (p.flags &&& 1) != 0

/-- The parsed header of the page. -/
def PageImage.hdr (p : PageImage) : PageHeader :=
  { bos := (p.flags &&& 2) != 0
    eos := (p.flags &&& 4) != 0
    granule_position := leNat p.granule
    stream_serial := leNat p.serial4
    sequence := leNat p.seq4
    checksum := leNat p.chk4 }

/-- The `PageCtx` the scanner produces for the page. -/
def PageImage.ctx (p : PageImage) : PageCtx :=
  { segment_count := p.lacing.length, segments := p.lacing, header := p.hdr }

/-- The concatenated byte image of a sequence of pages. -/
def joinPages (ps : List PageImage) : List Nat :=
  (ps.map PageImage.bytes).flatten

/-- Bytes that are a proper byte-wise beginning of some well-formed page (or
nothing at all): what the staging buffer holds after every complete page has
been consumed. -/
def PartialPage (extra : List Nat) : Prop :=
  extra = [] ∨ ∃ (p : PageImage) (q : List Nat), p.WF ∧ p.bytes = extra ++ q ∧ q ≠ []

/-- The eos bookkeeping of the page-drain branch (src/ogg.rs lines 63-72):
on eos, remove the serial's entry if present. -/
def eosStep (eos : Bool) (serial : Nat) (l : List (Nat × List Nat)) :
    List (Nat × List Nat) :=
  if eos then
    match l.findIdx? (fun e => e.1 == serial) with
    | some i => swapRemove l i
    | none => l
  else l

/-- The segment-cursor-zero bookkeeping of the page-accept branch
(src/ogg.rs lines 95-118), as a function of the stream state. -/
def recoverStep (continued : Bool) (serial : Nat) (segments : List Nat)
    (s : Stream) : Stream :=
  if s.segment = 0 then
    let s0 : Stream := { s with packet_start := 27 + segments.length }
    match s0.stream_packets.findIdx? (fun e => e.1 == serial) with
    | none => s0
    | some i =>
      let entry := (s0.stream_packets.getD i (0, [])).2
      let s1 :=
        if continued && entry.isEmpty then
          { s0 with
              packet_start := s0.packet_start + (segments.take (skipCount segments)).sum
              segment := s0.segment + skipCount segments }
        else s0
      if !continued && !entry.isEmpty then
        { s1 with stream_packets := clearAt s1.stream_packets i }
      else s1
  else s

lemma readAt_concat {pre mid post : List Nat} {off n : Nat}
    (hoff : pre.length = off) (hn : mid.length = n) :
    readAt (pre ++ (mid ++ post)) off n = some mid := by
  unfold readAt
  rw [if_pos]
  · rw [List.drop_left' hoff, List.take_left' hn]
  · simp [← hoff, ← hn]

lemma readAt_none {buf : List Nat} {off n : Nat} (h : buf.length < off + n) :
    readAt buf off n = none := by
  unfold readAt
  rw [if_neg]
  omega

lemma window_append {x y : List Nat} (a b : Nat) (h : a + b ≤ x.length) :
    ((x ++ y).drop a).take b = (x.drop a).take b := by
  rw [List.drop_append_of_le_length (by omega)]
  rw [List.take_append_of_le_length (by simp; omega)]

lemma readAt_append {x y : List Nat} (a b : Nat) (h : a + b ≤ x.length) :
    readAt (x ++ y) a b = readAt x a b := by
  unfold readAt
  rw [if_pos (by simp; omega), if_pos h, window_append a b h]

lemma bytes_length {p : PageImage} (hw : p.WF) :
    p.bytes.length = 27 + p.lacing.length + p.lacing.sum := by
  obtain ⟨h1, h2, h3, h4, h5, h6, h7, h8⟩ := hw
  simp [PageImage.bytes, mkPage, oggSMagic, h1, h2, h3, h4, h8]
  omega

/-- Parsing the 27-byte fixed header out of any buffer that starts with one. -/
lemma scanPage_hdr {flags segc : Nat} {granule serial4 seq4 chk4 tail : List Nat}
    (h1 : granule.length = 8) (h2 : serial4.length = 4) (h3 : seq4.length = 4)
    (h4 : chk4.length = 4) :
    scanPage (oggSMagic ++ [0] ++ [flags] ++ granule ++ serial4 ++ seq4 ++ chk4 ++
        [segc] ++ tail) =
      .header ((flags &&& 1) != 0)
        { bos := (flags &&& 2) != 0, eos := (flags &&& 4) != 0,
          granule_position := leNat granule, stream_serial := leNat serial4,
          sequence := leNat seq4, checksum := leNat chk4 } segc := by
  set buf := oggSMagic ++ [0] ++ [flags] ++ granule ++ serial4 ++ seq4 ++ chk4 ++
    [segc] ++ tail with hbuf
  have e0 : readAt buf 0 4 = some oggSMagic := by
    rw [show buf = [] ++ (oggSMagic ++ ([0] ++ ([flags] ++ (granule ++ (serial4 ++
      (seq4 ++ (chk4 ++ ([segc] ++ tail)))))))) from by simp [hbuf]]
    exact readAt_concat rfl rfl
  have e4 : readAt buf 4 1 = some [0] := by
    rw [show buf = oggSMagic ++ ([0] ++ ([flags] ++ (granule ++ (serial4 ++
      (seq4 ++ (chk4 ++ ([segc] ++ tail))))))) from by simp [hbuf]]
    exact readAt_concat (by simp [oggSMagic]) rfl
  have e5 : readAt buf 5 1 = some [flags] := by
    rw [show buf = (oggSMagic ++ [0]) ++ ([flags] ++ (granule ++ (serial4 ++
      (seq4 ++ (chk4 ++ ([segc] ++ tail)))))) from by simp [hbuf]]
    exact readAt_concat (by simp [oggSMagic]) rfl
  have e6 : readAt buf 6 8 = some granule := by
    rw [show buf = (oggSMagic ++ [0] ++ [flags]) ++ (granule ++ (serial4 ++
      (seq4 ++ (chk4 ++ ([segc] ++ tail))))) from by simp [hbuf]]
    exact readAt_concat (by simp [oggSMagic]) h1
  have e14 : readAt buf 14 4 = some serial4 := by
    rw [show buf = (oggSMagic ++ [0] ++ [flags] ++ granule) ++ (serial4 ++
      (seq4 ++ (chk4 ++ ([segc] ++ tail)))) from by simp [hbuf]]
    exact readAt_concat (by simp [oggSMagic, h1]) h2
  have e18 : readAt buf 18 4 = some seq4 := by
    rw [show buf = (oggSMagic ++ [0] ++ [flags] ++ granule ++ serial4) ++
      (seq4 ++ (chk4 ++ ([segc] ++ tail))) from by simp [hbuf]]
    exact readAt_concat (by simp [oggSMagic, h1, h2]) h3
  have e22 : readAt buf 22 4 = some chk4 := by
    rw [show buf = (oggSMagic ++ [0] ++ [flags] ++ granule ++ serial4 ++ seq4) ++
      (chk4 ++ ([segc] ++ tail)) from by simp [hbuf]]
    exact readAt_concat (by simp [oggSMagic, h1, h2, h3]) h4
  have e26 : readAt buf 26 1 = some [segc] := by
    rw [show buf = (oggSMagic ++ [0] ++ [flags] ++ granule ++ serial4 ++ seq4 ++
      chk4) ++ ([segc] ++ tail) from by simp [hbuf]]
    exact readAt_concat (by simp [oggSMagic, h1, h2, h3, h4]) rfl
  simp [scanPage, e0, e4, e5, e6, e14, e18, e22, e26]

lemma scanPage_bytes {p : PageImage} (hw : p.WF) (rest : List Nat) :
    scanPage (p.bytes ++ rest) = .header p.cont p.hdr p.lacing.length := by
  obtain ⟨h1, h2, h3, h4, h5, h6, h7, h8⟩ := hw
  rw [show p.bytes ++ rest = oggSMagic ++ [0] ++ [p.flags] ++ p.granule ++
    p.serial4 ++ p.seq4 ++ p.chk4 ++ [p.lacing.length] ++ (p.lacing ++ p.payload ++
    rest) from by simp [PageImage.bytes, mkPage]]
  exact scanPage_hdr h1 h2 h3 h4

lemma segments_bytes {p : PageImage} (hw : p.WF) (rest : List Nat) :
    ((p.bytes ++ rest).drop 27).take p.lacing.length = p.lacing := by
  obtain ⟨h1, h2, h3, h4, h5, h6, h7, h8⟩ := hw
  have hb : p.bytes ++ rest =
      (oggSMagic ++ [0] ++ [p.flags] ++ p.granule ++ p.serial4 ++ p.seq4 ++
        p.chk4 ++ [p.lacing.length]) ++ (p.lacing ++ (p.payload ++ rest)) := by
    simp [PageImage.bytes, mkPage, List.append_assoc]
  rw [hb, List.drop_left' (by simp [oggSMagic, h1, h2, h3, h4]),
    List.take_append_of_le_length le_rfl, List.take_length]

lemma readAt_bytes_4 {p : PageImage} (hw : p.WF) : readAt p.bytes 4 1 = some [0] := by
  obtain ⟨h1, h2, h3, h4, h5, h6, h7, h8⟩ := hw
  rw [show p.bytes = oggSMagic ++ ([0] ++ ([p.flags] ++ (p.granule ++ (p.serial4 ++
    (p.seq4 ++ (p.chk4 ++ ([p.lacing.length] ++ (p.lacing ++ p.payload))))))))
    from by simp [PageImage.bytes, mkPage]]
  exact readAt_concat (by simp [oggSMagic]) rfl

lemma readAt_bytes_0 {p : PageImage} (hw : p.WF) :
    readAt p.bytes 0 4 = some oggSMagic := by
  obtain ⟨h1, h2, h3, h4, h5, h6, h7, h8⟩ := hw
  rw [show p.bytes = [] ++ (oggSMagic ++ ([0] ++ ([p.flags] ++ (p.granule ++
    (p.serial4 ++ (p.seq4 ++ (p.chk4 ++ ([p.lacing.length] ++ (p.lacing ++
    p.payload))))))))) from by simp [PageImage.bytes, mkPage]]
  exact readAt_concat rfl rfl

lemma bytes_take_27 {p : PageImage} (hw : p.WF) :
    p.bytes.take 27 = oggSMagic ++ [0] ++ [p.flags] ++ p.granule ++ p.serial4 ++
      p.seq4 ++ p.chk4 ++ [p.lacing.length] := by
  obtain ⟨h1, h2, h3, h4, h5, h6, h7, h8⟩ := hw
  rw [show p.bytes = (oggSMagic ++ [0] ++ [p.flags] ++ p.granule ++ p.serial4 ++
    p.seq4 ++ p.chk4 ++ [p.lacing.length]) ++ (p.lacing ++ p.payload) from by
    simp [PageImage.bytes, mkPage, List.append_assoc]]
  rw [List.take_left' (by simp [oggSMagic, h1, h2, h3, h4])]

lemma scanPage_short_of_partial {p : PageImage} {q extra : List Nat} (hw : p.WF)
    (hpq : p.bytes = extra ++ q) (hm : extra.length < 27) :
    scanPage extra = .short := by
  by_cases h4 : extra.length < 4
  · have e0 : readAt extra 0 4 = none := readAt_none (by omega)
    simp [scanPage, e0]
  · have e0 : readAt extra 0 4 = some oggSMagic := by
      rw [← readAt_append 0 4 (x := extra) (y := q) (by omega), ← hpq]
      exact readAt_bytes_0 hw
    by_cases h5 : extra.length < 5
    · have e4 : readAt extra 4 1 = none := readAt_none (by omega)
      simp [scanPage, e0, e4]
    · have e4 : readAt extra 4 1 = some [0] := by
        rw [← readAt_append 4 1 (x := extra) (y := q) (by omega), ← hpq]
        exact readAt_bytes_4 hw
      have e26 : readAt extra 26 1 = none := readAt_none (by omega)
      cases hr5 : readAt extra 5 1 with
      | none => simp [scanPage, e0, e4, hr5]
      | some x5 =>
        cases hr6 : readAt extra 6 8 with
        | none => simp [scanPage, e0, e4, hr5, hr6]
        | some x6 =>
          cases hr14 : readAt extra 14 4 with
          | none => simp [scanPage, e0, e4, hr5, hr6, hr14]
          | some x14 =>
            cases hr18 : readAt extra 18 4 with
            | none => simp [scanPage, e0, e4, hr5, hr6, hr14, hr18]
            | some x18 =>
              cases hr22 : readAt extra 22 4 with
              | none => simp [scanPage, e0, e4, hr5, hr6, hr14, hr18, hr22]
              | some x22 => simp [scanPage, e0, e4, hr5, hr6, hr14, hr18, hr22, e26]

lemma next_partial {extra : List Nat} (hpp : PartialPage extra) (s : Stream) (f : Nat)
    (hbuf : s.buffer = extra) (hseg : s.segment = 0) :
    Stream.next f s = (none, s) := by
  cases f with
  | zero => rfl
  | succ f =>
    rw [stream_next_succ]
    rcases hpp with rfl | ⟨p, q, hw, hpq, hq⟩
    · have hshort : scanPage s.buffer = .short := by rw [hbuf]; rfl
      simp only [hshort]
    · by_cases h27 : extra.length < 27
      · have hshort : scanPage s.buffer = .short := by
          rw [hbuf]; exact scanPage_short_of_partial hw hpq h27
        simp only [hshort]
      · -- full fixed header available, but the page is incomplete
        obtain ⟨h1, h2, h3, h4, h5, h6, h7, h8⟩ := hw
        have hx : extra = (oggSMagic ++ [0] ++ [p.flags] ++ p.granule ++ p.serial4 ++
            p.seq4 ++ p.chk4 ++ [p.lacing.length]) ++ extra.drop 27 := by
          conv_lhs => rw [← List.take_append_drop 27 extra]
          have htk : extra.take 27 = p.bytes.take 27 := by
            rw [hpq, List.take_append_of_le_length (by omega)]
          rw [htk, bytes_take_27 ⟨h1, h2, h3, h4, h5, h6, h7, h8⟩]
        have hscan : scanPage s.buffer = .header p.cont p.hdr p.lacing.length := by
          rw [hbuf, hx]
          rw [show (oggSMagic ++ [0] ++ [p.flags] ++ p.granule ++ p.serial4 ++
            p.seq4 ++ p.chk4 ++ [p.lacing.length]) ++ extra.drop 27 =
            oggSMagic ++ [0] ++ [p.flags] ++ p.granule ++ p.serial4 ++ p.seq4 ++
            p.chk4 ++ [p.lacing.length] ++ extra.drop 27 from by
            simp [List.append_assoc]]
          rw [scanPage_hdr h1 h2 h3 h4]
          rfl
        simp only [hscan]
        have hms : ¬ (s.segment = p.lacing.length) := by omega
        rw [if_neg hms]
        have hlt : extra.length < p.bytes.length := by
          rw [hpq]
          have hql : q.length ≠ 0 := by
            intro h0
            exact hq (List.eq_nil_of_length_eq_zero h0)
          simp
          omega
        have hbl : p.bytes.length = 27 + p.lacing.length + p.lacing.sum :=
          bytes_length ⟨h1, h2, h3, h4, h5, h6, h7, h8⟩
        by_cases hseg27 : 27 + p.lacing.length > s.buffer.length
        · rw [if_pos hseg27]
        · rw [if_neg hseg27]
          have hsegeq : ((s.buffer.drop 27).take p.lacing.length) = p.lacing := by
            rw [hbuf]
            have hwin : ((extra ++ q).drop 27).take p.lacing.length =
                (extra.drop 27).take p.lacing.length := by
              apply window_append
              rw [hbuf] at hseg27
              omega
            rw [← hwin, ← hpq]
            have := segments_bytes ⟨h1, h2, h3, h4, h5, h6, h7, h8⟩ ([] : List Nat)
            simpa using this
          simp only [hsegeq]
          rw [if_pos (by rw [hbuf]; omega)]

lemma next_accept {p : PageImage} (hw : p.WF) {rest : List Nat} {s : Stream} (f : Nat)
    (hbuf : s.buffer = p.bytes ++ rest) (hseg : s.segment = 0) :
    Stream.next (f + 1) s =
      (some p.ctx, recoverStep p.cont p.hdr.stream_serial p.lacing s) := by
  have hw' := hw
  obtain ⟨h1, h2, h3, h4, h5, h6, h7, h8⟩ := hw'
  have hscan : scanPage s.buffer = .header p.cont p.hdr p.lacing.length := by
    rw [hbuf]; exact scanPage_bytes hw rest
  have hbl : p.bytes.length = 27 + p.lacing.length + p.lacing.sum := bytes_length hw
  have hms : ¬ (s.segment = p.lacing.length) := by omega
  have hlen : s.buffer.length = p.bytes.length + rest.length := by simp [hbuf]
  have hsegeq : ((s.buffer.drop 27).take p.lacing.length) = p.lacing := by
    rw [hbuf]; exact segments_bytes hw rest
  rw [stream_next_succ]
  simp only [hscan]
  rw [if_neg hms, if_neg (by omega)]
  simp only [hsegeq]
  rw [if_neg (by omega)]
  rw [if_pos hseg]
  rw [recoverStep, if_pos hseg]
  rfl

lemma next_drain {p0 : PageImage} (hw : p0.WF) {more : List Nat} {s : Stream} (f : Nat)
    (hbuf : s.buffer = p0.bytes ++ more) (hseg : s.segment = p0.lacing.length)
    (hps : s.packet_start = p0.bytes.length) :
    Stream.next (f + 1) s =
      Stream.next f
        { s with segment := 0, buffer := more,
                 stream_packets := eosStep p0.hdr.eos p0.hdr.stream_serial
                   s.stream_packets } := by
  have hscan : scanPage s.buffer = .header p0.cont p0.hdr p0.lacing.length := by
    rw [hbuf]; exact scanPage_bytes hw more
  rw [stream_next_succ]
  simp only [hscan]
  rw [if_pos hseg]
  have hdrop : s.buffer.drop s.packet_start = more := by
    rw [hbuf, hps, List.drop_left]
  simp only [hdrop, eosStep]
  cases he : p0.hdr.eos with
  | false => simp
  | true =>
    simp only [if_pos rfl, ite_true]
    cases hfind : s.stream_packets.findIdx?
        (fun e => e.1 == p0.hdr.stream_serial) with
    | none => simp [hfind]
    | some i => simp [hfind]

lemma walkSegsAux_count_le (l : List Nat) (acc : Nat) :
    (walkSegsAux l acc).2.1 ≤ l.length := by
  induction l generalizing acc with
  | nil => simp [walkSegsAux]
  | cons x xs ih =>
    by_cases hx : x < 255
    · simp [walkSegsAux, hx]
    · simp only [walkSegsAux, if_neg hx, List.length_cons]
      have := ih (satAdd acc x)
      omega

lemma walkSegsAux_count_pos (l : List Nat) (acc : Nat) (h : l ≠ []) :
    1 ≤ (walkSegsAux l acc).2.1 := by
  cases l with
  | nil => exact absurd rfl h
  | cons x xs =>
    by_cases hx : x < 255
    · simp [walkSegsAux, hx]
    · simp only [walkSegsAux, if_neg hx]
      omega

lemma walkSegsAux_all (l : List Nat) (acc : Nat)
    (h : (walkSegsAux l acc).2.2 = true) : (walkSegsAux l acc).2.1 = l.length := by
  induction l generalizing acc with
  | nil => simp [walkSegsAux]
  | cons x xs ih =>
    by_cases hx : x < 255
    · simp [walkSegsAux, hx] at h
    · simp only [walkSegsAux, if_neg hx] at h ⊢
      have := ih (satAdd acc x) h
      simp [this]

lemma lacing_sum_le {p : PageImage} (hw : p.WF) : p.lacing.sum ≤ 65025 := by
  obtain ⟨h1, h2, h3, h4, h5, h6, h7, h8⟩ := hw
  have := sum_le_of_all_le h7
  nlinarith

lemma sum_take_add_drop (l : List Nat) (n : Nat) :
    (l.take n).sum + (l.drop n).sum = l.sum := by
  rw [← List.sum_append, List.take_append_drop]

lemma fill_swap {pb : List Nat} (u v : List Nat) {start stop : Nat}
    (h : stop ≤ pb.length) (out : List Nat) :
    fill (pb ++ v) start stop out = fill (pb ++ u) start stop out := by
  unfold fill
  rw [if_neg (by simp; omega), if_neg (by simp; omega)]
  by_cases hss : start ≤ stop
  · rw [window_append start (stop - start) (by omega),
      ← window_append start (stop - start) (h := by omega) (y := u)]
  · have h0 : stop - start = 0 := by omega
    simp [h0]

/-- One `next_inner` call is insensitive to the bytes beyond the current
page. -/
lemma nextInner_swap {p : PageImage} (hw : p.WF) (u v : List Nat) {s : Stream}
    (hsb : s.buffer = p.bytes ++ u)
    (hlt : s.segment < p.lacing.length)
    (hinv : s.packet_start + (p.lacing.drop s.segment).sum = p.bytes.length) :
    nextInner p.ctx { s with buffer := p.bytes ++ v } =
      ((nextInner p.ctx s).1,
        { (nextInner p.ctx s).2 with buffer := p.bytes ++ v }) := by
  have hwsum : (0 : Nat) + (p.lacing.drop s.segment).sum ≤ usizeMax := by
    have h1 : (p.lacing.drop s.segment).sum ≤ p.lacing.sum := by
      have := sum_take_add_drop p.lacing s.segment
      omega
    have h2 := lacing_sum_le hw
    have h3 : (65025 : Nat) ≤ usizeMax := by norm_num [usizeMax]
    omega
  have hw1 : (walkSegsAux (p.lacing.drop s.segment) 0).1 =
      ((p.lacing.drop s.segment).take
        (walkSegsAux (p.lacing.drop s.segment) 0).2.1).sum := by
    simpa using walkSegsAux_sum (p.lacing.drop s.segment) 0 hwsum
  have hw1le : (walkSegsAux (p.lacing.drop s.segment) 0).1 ≤
      (p.lacing.drop s.segment).sum := by
    rw [hw1]
    have := sum_take_add_drop (p.lacing.drop s.segment)
      (walkSegsAux (p.lacing.drop s.segment) 0).2.1
    omega
  have hpe : s.packet_start + (walkSegsAux (p.lacing.drop s.segment) 0).1 ≤
      p.bytes.length := by omega
  have hnle : ¬ (p.lacing.length ≤ s.segment) := by omega
  simp only [nextInner, PageImage.ctx]
  dsimp only
  rw [if_neg hnle, if_neg hnle, hsb, fill_swap u v hpe]
  split <;> rfl

lemma nextInner_post {p : PageImage} (hw : p.WF) (u : List Nat) {s : Stream}
    (hsb : s.buffer = p.bytes ++ u)
    (hlt : s.segment < p.lacing.length)
    (hinv : s.packet_start + (p.lacing.drop s.segment).sum = p.bytes.length) :
    (nextInner p.ctx s).2.buffer = s.buffer ∧
    (nextInner p.ctx s).2.segment =
      s.segment + (walkSegsAux (p.lacing.drop s.segment) 0).2.1 ∧
    (nextInner p.ctx s).2.packet_start +
      (p.lacing.drop (nextInner p.ctx s).2.segment).sum = p.bytes.length ∧
    s.segment < (nextInner p.ctx s).2.segment ∧
    (nextInner p.ctx s).2.segment ≤ p.lacing.length ∧
    ((nextInner p.ctx s).1 = none →
      (nextInner p.ctx s).2.segment = p.lacing.length) := by
  have hwsum : (0 : Nat) + (p.lacing.drop s.segment).sum ≤ usizeMax := by
    have h1 : (p.lacing.drop s.segment).sum ≤ p.lacing.sum := by
      have := sum_take_add_drop p.lacing s.segment
      omega
    have h2 := lacing_sum_le hw
    have h3 : (65025 : Nat) ≤ usizeMax := by norm_num [usizeMax]
    omega
  have hw1 : (walkSegsAux (p.lacing.drop s.segment) 0).1 =
      ((p.lacing.drop s.segment).take
        (walkSegsAux (p.lacing.drop s.segment) 0).2.1).sum := by
    simpa using walkSegsAux_sum (p.lacing.drop s.segment) 0 hwsum
  have hw1le : (walkSegsAux (p.lacing.drop s.segment) 0).1 ≤
      (p.lacing.drop s.segment).sum := by
    rw [hw1]
    have := sum_take_add_drop (p.lacing.drop s.segment)
      (walkSegsAux (p.lacing.drop s.segment) 0).2.1
    omega
  have hpe : s.packet_start + (walkSegsAux (p.lacing.drop s.segment) 0).1 ≤
      p.bytes.length := by omega
  have hdlen : (p.lacing.drop s.segment).length = p.lacing.length - s.segment := by
    simp
  have hcle : (walkSegsAux (p.lacing.drop s.segment) 0).2.1 ≤
      (p.lacing.drop s.segment).length := walkSegsAux_count_le _ _
  have hcpos : 1 ≤ (walkSegsAux (p.lacing.drop s.segment) 0).2.1 := by
    apply walkSegsAux_count_pos
    intro hnil
    rw [hnil] at hdlen
    simp at hdlen
    omega
  have hnle : ¬ (p.lacing.length ≤ s.segment) := by omega
  have hinv' : s.packet_start + (walkSegsAux (p.lacing.drop s.segment) 0).1 +
      (p.lacing.drop
        (s.segment + (walkSegsAux (p.lacing.drop s.segment) 0).2.1)).sum =
      p.bytes.length := by
    have hsplit := sum_take_add_drop (p.lacing.drop s.segment)
      (walkSegsAux (p.lacing.drop s.segment) 0).2.1
    have hdd : (p.lacing.drop s.segment).drop
        (walkSegsAux (p.lacing.drop s.segment) 0).2.1 =
        p.lacing.drop (s.segment + (walkSegsAux (p.lacing.drop s.segment) 0).2.1) := by
      rw [List.drop_drop]
    rw [← hdd]
    omega
  have hall : (walkSegsAux (p.lacing.drop s.segment) 0).2.2 = true →
      s.segment + (walkSegsAux (p.lacing.drop s.segment) 0).2.1 =
        p.lacing.length := by
    intro hc
    have := walkSegsAux_all (p.lacing.drop s.segment) 0 hc
    rw [this, hdlen]
    omega
  simp only [nextInner, PageImage.ctx]
  rw [if_neg hnle]
  split
  · next heq =>
    exfalso
    rw [hsb] at heq
    unfold fill at heq
    rw [if_neg (by simp; omega)] at heq
    exact Option.noConfusion heq
  · next data heq =>
    refine ⟨rfl, rfl, by simpa using hinv', ?_, ?_, ?_⟩
    · show s.segment < s.segment + (walkSegsAux (p.lacing.drop s.segment) 0).2.1
      omega
    · show s.segment + (walkSegsAux (p.lacing.drop s.segment) 0).2.1 ≤ p.lacing.length
      rw [hdlen] at hcle
      omega
    · intro hnone
      by_cases hc : (walkSegsAux (p.lacing.drop s.segment) 0).2.2 = true
      · simpa using hall hc
      · simp [hc] at hnone

lemma nextInner_done {p : PageImage} {s : Stream} (h : p.lacing.length ≤ s.segment) :
    nextInner p.ctx s = (none, s) := by
  simp [nextInner, PageImage.ctx, h]

/-- Draining one page's packets is insensitive to the bytes beyond the page,
never touches the buffer, and ends with every segment consumed and the packet
cursor at the end of the page. -/
lemma drainPage_run {p : PageImage} (hw : p.WF) (fuel : Nat) :
    ∀ (s : Stream) (u v : List Nat),
    s.buffer = p.bytes ++ u →
    s.segment ≤ p.lacing.length →
    s.packet_start + (p.lacing.drop s.segment).sum = p.bytes.length →
    p.lacing.length - s.segment < fuel →
    drainPage fuel p.ctx { s with buffer := p.bytes ++ v } =
      ((drainPage fuel p.ctx s).1,
        { (drainPage fuel p.ctx s).2 with buffer := p.bytes ++ v }) ∧
    (drainPage fuel p.ctx s).2.buffer = s.buffer ∧
    (drainPage fuel p.ctx s).2.segment = p.lacing.length ∧
    (drainPage fuel p.ctx s).2.packet_start = p.bytes.length := by
  induction fuel with
  | zero =>
    intro s u v _ _ _ hfuel
    omega
  | succ f ih =>
    intro s u v hsb hle hinv hfuel
    by_cases hdone : p.lacing.length ≤ s.segment
    · have hseq : s.segment = p.lacing.length := by omega
      have h1 := nextInner_done (s := s) hdone
      have h2 := nextInner_done (s := { s with buffer := p.bytes ++ v })
        (by simpa using hdone)
      refine ⟨?_, ?_, ?_, ?_⟩
      · simp only [drainPage, h1, h2]
      · simp only [drainPage, h1]
      · simp only [drainPage, h1]
        exact hseq
      · simp only [drainPage, h1]
        rw [hseq] at hinv
        simpa using hinv
    · have hlt : s.segment < p.lacing.length := by omega
      have hswap := nextInner_swap hw u v hsb hlt hinv
      have hpost := nextInner_post hw u hsb hlt hinv
      rcases hni : nextInner p.ctx s with ⟨r, s2⟩
      rw [hni] at hswap hpost
      dsimp only at hswap hpost
      obtain ⟨hb2, hseg2, hinv2, hgt2, hle2, hnone2⟩ := hpost
      cases r with
      | none =>
        have hs2 : s2.segment = p.lacing.length := hnone2 rfl
        refine ⟨?_, ?_, ?_, ?_⟩
        · simp only [drainPage, hni, hswap]
        · simp only [drainPage, hni]
          exact hb2
        · simp only [drainPage, hni]
          exact hs2
        · simp only [drainPage, hni]
          rw [hs2] at hinv2
          simpa using hinv2
      | some d =>
        have hsb2 : s2.buffer = p.bytes ++ u := by rw [hb2, hsb]
        obtain ⟨ihswap, ihb, ihseg, ihps⟩ :=
          ih s2 u v hsb2 hle2 hinv2 (by omega)
        refine ⟨?_, ?_, ?_, ?_⟩
        · simp only [drainPage, hni, hswap, ihswap]
        · simp only [drainPage, hni]
          rw [ihb, hsb2, hsb]
        · simp only [drainPage, hni]
          exact ihseg
        · simp only [drainPage, hni]
          exact ihps

lemma skipCount_le_length (l : List Nat) : skipCount l ≤ l.length := by
  induction l with
  | nil => simp [skipCount]
  | cons x xs ih =>
    by_cases hx : x ≠ 255
    · simp [skipCount, hx]
    · simp only [skipCount, if_neg hx, List.length_cons]
      omega

lemma recoverStep_swap (c : Bool) (serial : Nat) (segs : List Nat) (s : Stream)
    (B : List Nat) :
    recoverStep c serial segs { s with buffer := B } =
      { recoverStep c serial segs s with buffer := B } := by
  unfold recoverStep
  dsimp only
  by_cases h0 : s.segment = 0
  · rw [if_pos h0, if_pos h0]
    cases hf : s.stream_packets.findIdx? (fun e => e.1 == serial) with
    | none => rfl
    | some i =>
      simp only [hf]
      split_ifs <;> rfl
  · rw [if_neg h0, if_neg h0]

lemma recoverStep_post {p : PageImage} (hw : p.WF) (c : Bool) (serial : Nat)
    (s : Stream) (h0 : s.segment = 0) :
    (recoverStep c serial p.lacing s).buffer = s.buffer ∧
    (recoverStep c serial p.lacing s).packet_continued = s.packet_continued ∧
    (recoverStep c serial p.lacing s).segment ≤ p.lacing.length ∧
    (recoverStep c serial p.lacing s).packet_start +
      (p.lacing.drop (recoverStep c serial p.lacing s).segment).sum =
      p.bytes.length := by
  have hbl : p.bytes.length = 27 + p.lacing.length + p.lacing.sum := bytes_length hw
  simp only [recoverStep, if_pos h0]
  cases hf : s.stream_packets.findIdx? (fun e => e.1 == serial) with
  | none =>
    dsimp only
    refine ⟨rfl, rfl, by omega, ?_⟩
    simp [h0]
    omega
  | some i =>
    dsimp only
    have hk := skipCount_le_length p.lacing
    have hsplit := sum_take_add_drop p.lacing (skipCount p.lacing)
    split_ifs <;> refine ⟨rfl, rfl, ?_, ?_⟩ <;> (simp [h0]; try omega)

lemma pagePackets_run {p : PageImage} (hw : p.WF) (s : Stream) (u v : List Nat)
    (hsb : s.buffer = p.bytes ++ u)
    (hle : s.segment ≤ p.lacing.length)
    (hinv : s.packet_start + (p.lacing.drop s.segment).sum = p.bytes.length) :
    pagePackets p.ctx { s with buffer := p.bytes ++ v } =
      ((pagePackets p.ctx s).1,
        { (pagePackets p.ctx s).2 with buffer := p.bytes ++ v }) ∧
    (pagePackets p.ctx s).2.buffer = s.buffer ∧
    (pagePackets p.ctx s).2.segment = p.lacing.length ∧
    (pagePackets p.ctx s).2.packet_start = p.bytes.length := by
  have hfuel : p.lacing.length - s.segment < p.ctx.segment_count + 1 := by
    simp only [PageImage.ctx]
    omega
  obtain ⟨hswap, hb, hseg, hps⟩ :=
    drainPage_run hw (p.ctx.segment_count + 1) s u v hsb hle hinv hfuel
  refine ⟨?_, ?_, ?_, ?_⟩
  · simp only [pagePackets, hswap]
  · simpa [pagePackets] using hb
  · simpa [pagePackets] using hseg
  · simpa [pagePackets] using hps

lemma joinPages_cons (p : PageImage) (ps : List PageImage) :
    joinPages (p :: ps) = p.bytes ++ joinPages ps := by
  simp [joinPages]

lemma joinPages_append (ps qs : List PageImage) :
    joinPages (ps ++ qs) = joinPages ps ++ joinPages qs := by
  simp [joinPages]

lemma joinPages_nil : joinPages [] = [] := rfl



/-- Driving the page loop from the state right after a fully delivered page
`p0`: the remaining complete pages are processed identically whatever the
trailing partial bytes, those bytes are what remains buffered at the end, and
the final cursor sits at the end of the last processed page. -/
lemma drivePages_post :
    ∀ (ps : List PageImage) (F F' : Nat) (p0 : PageImage) (s : Stream)
      (u v : List Nat),
    p0.WF → (∀ p ∈ ps, p.WF) → PartialPage u → PartialPage v →
    s.buffer = p0.bytes ++ (joinPages ps ++ u) →
    s.segment = p0.lacing.length →
    s.packet_start = p0.bytes.length →
    ps.length < F → ps.length < F' →
    drivePages F' { s with buffer := p0.bytes ++ (joinPages ps ++ v) } =
      ((drivePages F s).1, { (drivePages F s).2 with buffer := v }) ∧
    (drivePages F s).2.buffer = u ∧
    (drivePages F s).2.segment = 0 ∧
    (drivePages F s).2.packet_start =
      ((p0 :: ps).getLast (by simp)).bytes.length := by
  intro ps
  induction ps with
  | nil =>
    intro F F' p0 s u v hw0 _ hpu hpv hsb hseg hps hF hF'
    obtain ⟨f, rfl⟩ : ∃ f, F = f + 1 := ⟨F - 1, by omega⟩
    obtain ⟨f', rfl⟩ : ∃ f', F' = f' + 1 := ⟨F' - 1, by omega⟩
    have hnx : Stream.next (s.buffer.length + 1) s =
        (none,
          { s with
              segment := 0
              buffer := u
              stream_packets := eosStep p0.hdr.eos p0.hdr.stream_serial
                s.stream_packets }) := by
      rw [next_drain hw0 _
        (show s.buffer = p0.bytes ++ u from by simpa [joinPages] using hsb)
        hseg hps]
      exact next_partial hpu _ _ rfl rfl
    have hnx' : Stream.next
        (({ s with buffer := p0.bytes ++ (joinPages [] ++ v) } : Stream).buffer.length + 1)
        { s with buffer := p0.bytes ++ (joinPages [] ++ v) } =
        (none,
          { s with
              segment := 0
              buffer := v
              stream_packets := eosStep p0.hdr.eos p0.hdr.stream_serial
                s.stream_packets }) := by
      rw [next_drain hw0 _
        (show ({ s with buffer := p0.bytes ++ (joinPages [] ++ v) } : Stream).buffer =
          p0.bytes ++ v from by simp [joinPages])
        (by simpa using hseg) (by simpa using hps)]
      exact next_partial hpv _ _ rfl rfl
    refine ⟨?_, ?_, ?_, ?_⟩
    · simp only [drivePages, hnx, hnx']
    · simp only [drivePages, hnx]
    · simp only [drivePages, hnx]
    · simp only [drivePages, hnx]
      simpa using hps
  | cons p1 ps' ih =>
    intro F F' p0 s u v hw0 hwall hpu hpv hsb hseg hps hF hF'
    simp only [List.length_cons] at hF hF'
    have hw1 : p1.WF := hwall p1 (by simp)
    have hwall' : ∀ p ∈ ps', p.WF := fun p hp => hwall p (by simp [hp])
    obtain ⟨f, rfl⟩ : ∃ f, F = f + 1 := ⟨F - 1, by omega⟩
    obtain ⟨f', rfl⟩ : ∃ f', F' = f' + 1 := ⟨F' - 1, by omega⟩
    set sd : Stream :=
      { s with
          segment := 0
          buffer := p1.bytes ++ (joinPages ps' ++ u)
          stream_packets := eosStep p0.hdr.eos p0.hdr.stream_serial
            s.stream_packets } with hsd
    set sd' : Stream :=
      { s with
          segment := 0
          buffer := p1.bytes ++ (joinPages ps' ++ v)
          stream_packets := eosStep p0.hdr.eos p0.hdr.stream_serial
            s.stream_packets } with hsd'
    have hL : 1 ≤ s.buffer.length := by
      rw [hsb]
      have := bytes_length hw0
      simp
      omega
    have hnx : Stream.next (s.buffer.length + 1) s =
        (some p1.ctx, recoverStep p1.cont p1.hdr.stream_serial p1.lacing sd) := by
      rw [next_drain hw0 _
        (show s.buffer = p0.bytes ++ (p1.bytes ++ (joinPages ps' ++ u)) from by
          simp [hsb, joinPages_cons])
        hseg hps]
      obtain ⟨L, hLe⟩ : ∃ L, s.buffer.length = L + 1 := ⟨s.buffer.length - 1, by omega⟩
      rw [hLe]
      exact next_accept hw1 L rfl rfl
    have hL' : 1 ≤ (p0.bytes ++ (joinPages (p1 :: ps') ++ v)).length := by
      have := bytes_length hw0
      simp
      omega
    have hnx' : Stream.next
        (({ s with buffer := p0.bytes ++ (joinPages (p1 :: ps') ++ v) } : Stream).buffer.length + 1)
        { s with buffer := p0.bytes ++ (joinPages (p1 :: ps') ++ v) } =
        (some p1.ctx, recoverStep p1.cont p1.hdr.stream_serial p1.lacing sd') := by
      rw [next_drain hw0 _
        (show ({ s with buffer := p0.bytes ++ (joinPages (p1 :: ps') ++ v) } : Stream).buffer =
          p0.bytes ++ (p1.bytes ++ (joinPages ps' ++ v)) from by
          simp [joinPages_cons])
        (by simpa using hseg) (by simpa using hps)]
      obtain ⟨L, hLe⟩ : ∃ L,
          ({ s with buffer := p0.bytes ++ (joinPages (p1 :: ps') ++ v) } : Stream).buffer.length =
          L + 1 := by
        refine ⟨(p0.bytes ++ (joinPages (p1 :: ps') ++ v)).length - 1, ?_⟩
        show (p0.bytes ++ (joinPages (p1 :: ps') ++ v)).length = _
        omega
      rw [hLe]
      exact next_accept hw1 L rfl rfl
    have hrec := recoverStep_post hw1 p1.cont p1.hdr.stream_serial sd rfl
    obtain ⟨hrb, hrc, hrle, hrinv⟩ := hrec
    set rd : Stream := recoverStep p1.cont p1.hdr.stream_serial p1.lacing sd with hrd
    have hrbuf : rd.buffer = p1.bytes ++ (joinPages ps' ++ u) := by
      rw [hrb]
    have hrswap : recoverStep p1.cont p1.hdr.stream_serial p1.lacing sd' =
        { rd with buffer := p1.bytes ++ (joinPages ps' ++ v) } := by
      rw [show sd' = { sd with buffer := p1.bytes ++ (joinPages ps' ++ v) } from rfl]
      rw [recoverStep_swap, hrd]
    obtain ⟨hpswap, hpb, hpseg, hpps⟩ :=
      pagePackets_run hw1 rd (joinPages ps' ++ u) (joinPages ps' ++ v) hrbuf hrle hrinv
    set sp : Stream := (pagePackets p1.ctx rd).2 with hsp
    have hspb : sp.buffer = p1.bytes ++ (joinPages ps' ++ u) := by
      rw [hpb, hrbuf]
    obtain ⟨ihswap, ihb, ihseg, ihps⟩ :=
      ih f f' p1 sp u v hw1 hwall' hpu hpv hspb hpseg hpps (by omega) (by omega)
    refine ⟨?_, ?_, ?_, ?_⟩
    · simp only [drivePages, hnx, hnx', hrswap, hpswap, ← hsp, ihswap]
    · simp only [drivePages, hnx, ← hsp]
      exact ihb
    · simp only [drivePages, hnx, ← hsp]
      exact ihseg
    · simp only [drivePages, hnx, ← hsp]
      rw [ihps]
      rfl

/-- Page 1: bos, serial 1, single 19-byte identification packet. -/
def specPage1 : List Nat :=
  mkPage 2 z8 [1, 0, 0, 0] [0, 0, 0, 0] [0, 0, 0, 0] [19]
    (opusHeadMagic ++ [0x00, 0x02, 0x38, 0x01, 0, 0, 0, 0, 0x00, 0x00, 0x00])

/-- Page 2: serial 1, single 16-byte comment packet (vendor length 0,
comment count 0). -/
def specPage2 : List Nat :=
  mkPage 0 z8 [1, 0, 0, 0] [1, 0, 0, 0] [0, 0, 0, 0] [16]
    (opusTagsMagic ++ [0, 0, 0, 0, 0, 0, 0, 0])

/-- Page 3: serial 1, one 5-byte opaque packet. -/
def specPage3 : List Nat :=
  mkPage 0 z8 [1, 0, 0, 0] [2, 0, 0, 0] [0, 0, 0, 0] [5] [1, 2, 3, 4, 5]

/-- A bos page whose identification packet is `b"OpusHead"` plus the version
byte only: 9 bytes, shorter than the 18 mandatory fixed bytes. -/
def idPage9 : List Nat :=
  mkPage 2 z8 [1, 0, 0, 0] [0, 0, 0, 0] [0, 0, 0, 0] [9] (opusHeadMagic ++ [0x00])

/-- A bos page whose identification packet is 10 bytes long (magic, version,
channel count) — also shorter than the mandatory fixed fields. -/
def idPage10 : List Nat :=
  mkPage 2 z8 [1, 0, 0, 0] [0, 0, 0, 0] [0, 0, 0, 0] [10]
    (opusHeadMagic ++ [0x00, 0x02])

/-! Interleaved two-stream input: serial 1 is a valid Opus stream whose third
packet spans two pages (lacing `255` then `5`); a page of serial 2 carrying
one complete packet arrives between the two halves. -/

/-- Serial 1: page opening a 260-byte packet (single lacing value 255). -/
def mxOpenPage : List Nat :=
  mkPage 0 z8 [1, 0, 0, 0] [2, 0, 0, 0] [0, 0, 0, 0] [255] (List.replicate 255 7)

/-- Serial 2: one page with one complete 10-byte packet. -/
def mxOtherPage : List Nat :=
  mkPage 0 z8 [2, 0, 0, 0] [0, 0, 0, 0] [0, 0, 0, 0] [10] (List.replicate 10 9)

/-- Serial 1: continuation page with the 5 terminating bytes of the open
packet. -/
def mxClosePage : List Nat :=
  mkPage 1 z8 [1, 0, 0, 0] [3, 0, 0, 0] [0, 0, 0, 0] [5] [1, 2, 3, 4, 5]

/-- Demuxer state after one push of the interleaved input. -/
def mxInterleaved : Demuxer :=
  (Demuxer.new.push
    (specPage1 ++ specPage2 ++ mxOpenPage ++ mxOtherPage ++ mxClosePage)).2

/-- Demuxer state after one push of the same input without the serial-2
page. -/
def mxIsolated : Demuxer :=
  (Demuxer.new.push (specPage1 ++ specPage2 ++ mxOpenPage ++ mxClosePage)).2

/-- Serial 1: eos page with one complete 3-byte packet. -/
def eosPage : List Nat :=
  mkPage 4 z8 [1, 0, 0, 0] [0, 0, 0, 0] [0, 0, 0, 0] [3] [1, 2, 3]

/-- Serial 1: a page flagged continued arriving after the serial's entry was
removed at eos; it carries a 2-byte orphaned fragment. -/
def orphanPage : List Nat :=
  mkPage 1 z8 [1, 0, 0, 0] [1, 0, 0, 0] [0, 0, 0, 0] [2] [4, 5]

end OpusMux

namespace OpusMux

set_option maxRecDepth 100000

/-! ### Claims -/

/-- **C1.** The concrete three-page scenario of spec section 8: after a fresh
demuxer receives the three pages via `push` (each call returning `Ok`),
`header()` is `Some` with channels 2, pre-skip 312 and output gain 0,
`tags()` is the comment packet's bytes, and `next()` yields the 5-byte packet
exactly once and thereafter `None`. -/
theorem c1_concrete_scenario :
    (Demuxer.new.push specPage1).1 = none ∧
    ((Demuxer.new.push specPage1).2.push specPage2).1 = none ∧
    (((Demuxer.new.push specPage1).2.push specPage2).2.push specPage3).1 = none ∧
    ((((Demuxer.new.push specPage1).2.push specPage2).2.push specPage3).2.header =
      some { serial := 1, channels := 2, pre_skip := 312, output_gain := 0 }) ∧
    ((((Demuxer.new.push specPage1).2.push specPage2).2.push specPage3).2.tagsData =
      some (opusTagsMagic ++ [0, 0, 0, 0, 0, 0, 0, 0])) ∧
    (((((Demuxer.new.push specPage1).2.push specPage2).2.push specPage3).2.next).1 =
      some [1, 2, 3, 4, 5]) ∧
    ((((((Demuxer.new.push specPage1).2.push specPage2).2.push specPage3).2.next).2.next).1 =
      none) := by
  decide

/-- **C4** (code bug). A fully reassembled first-in-stream packet that begins
with `OpusHead`, has version high nibble zero, but is only 9 bytes long makes
`push` abort through the out-of-bounds index `packet.data[9]`
(src/lib.rs line 106) — a Rust panic, not the `Malformed` error the spec
promises.  A 10-byte packet, by contrast, does reach the checked `pre_skip`
read and reports `Malformed`. -/
theorem c4_short_id_packet_panics :
    (Demuxer.new.push idPage9).1 = some PushErr.panicked ∧
    (Demuxer.new.push idPage10).1 = some PushErr.malformed := by
  decide

/-- **C5** (code bug). Two interleaved logical streams are not reassembled
independently: serial 1's packet, opened with lacing value 255 on one page and
closed with 5 bytes on a later page, should be the 260-byte concatenation of
its own segments, but because `Stream.packet_continued` (src/ogg.rs line 14)
is a single global flag rather than per-serial state, the completed serial-2
packet in between resets it and serial 1's 255 buffered bytes are discarded:
`next()` returns only the 5 closing bytes.  Without the interposed serial-2
page the very same serial-1 pages reassemble to the full 260 bytes. -/
theorem c5_interleaving_truncates_packet :
    (mxInterleaved.next).1 = some [1, 2, 3, 4, 5] ∧
    (mxInterleaved.next).1 ≠ some (List.replicate 255 7 ++ [1, 2, 3, 4, 5]) ∧
    (mxIsolated.next).1 = some (List.replicate 255 7 ++ [1, 2, 3, 4, 5]) := by
  decide

/-- **C8** (counterexample). After the eos page of serial 1 has had its packet
delivered, the next page request does remove the serial's buffer entry; but a
later page addressing the removed serial as continued is *not* recovered as
tail-without-head: the 2-byte orphaned fragment is delivered as a packet of
its own, contradicting the claim that no spurious packet is built from it. -/
theorem c8_orphan_fragment_delivered :
    (drivePages ((eosPage ++ orphanPage).length + 1)
        (Stream.new.push (eosPage ++ orphanPage))).1 =
      [{ serial := 1, first_in_stream := false, data := [1, 2, 3] },
       { serial := 1, first_in_stream := false, data := [4, 5] }] ∧
    (drivePages (eosPage.length + 1) (Stream.new.push eosPage)).2.stream_packets =
      [] := by
  decide

/-- **C8** (amended). When a fully delivered page is scanned again its bytes
are drained, and if it is eos-flagged the current serial's reassembly entry is
removed (for per-serial lists with distinct serials).  A later page addressing
a serial with *no* recorded entry — in particular a removed one — is *not*
recovered as tail-without-head: the accepted page performs no segment skip and
no buffer change, so the orphaned fragment is subsequently buffered and
delivered like an ordinary packet. -/
theorem c8_eos_removal_no_orphan_recovery :
    (∀ (f : Nat) (s : Stream) (continued : Bool) (hdr : PageHeader) (sc : Nat),
      scanPage s.buffer = .header continued hdr sc → s.segment = sc →
      hdr.eos = true → (s.stream_packets.map Prod.fst).Nodup →
      ∃ s2 : Stream, Stream.next (f + 1) s = Stream.next f s2 ∧
        s2.buffer = s.buffer.drop s.packet_start ∧ s2.segment = 0 ∧
        hdr.stream_serial ∉ s2.stream_packets.map Prod.fst) ∧
    (∀ (f : Nat) (s : Stream) (continued : Bool) (hdr : PageHeader) (sc : Nat),
      scanPage s.buffer = .header continued hdr sc → s.segment = 0 → sc ≠ 0 →
      27 + sc + ((s.buffer.drop 27).take sc).sum ≤ s.buffer.length →
      s.stream_packets.findIdx? (fun e => e.1 == hdr.stream_serial) = none →
      Stream.next (f + 1) s =
        (some { segment_count := sc, segments := (s.buffer.drop 27).take sc,
                header := hdr },
         { s with packet_start := 27 + sc })) := by
  constructor
  · intro f s continued hdr sc hscan hseg heos hnd
    rw [stream_next_succ, hscan]
    simp only [if_pos hseg, heos, if_pos rfl]
    set s1 : Stream := { s with segment := 0, buffer := s.buffer.drop s.packet_start }
      with hs1
    cases hfind : s1.stream_packets.findIdx? (fun e => e.1 == hdr.stream_serial) with
    | none =>
      refine ⟨s1, by simp [hfind], rfl, rfl, ?_⟩
      intro hmem
      rw [List.mem_map] at hmem
      obtain ⟨e, he, hes⟩ := hmem
      have := List.findIdx?_eq_none_iff.mp hfind e he
      simp [hes] at this
    | some i =>
      refine ⟨{ s1 with stream_packets := swapRemove s1.stream_packets i },
        by simp [hfind], rfl, rfl, ?_⟩
      exact swapRemove_not_mem (by simpa using hnd) hfind
  · intro f s continued hdr sc hscan hseg hsc hfit hfind
    have hns : ¬ (s.segment = sc) := by omega
    have h1 : ¬ (27 + sc > s.buffer.length) := by omega
    have h2 : ¬ (27 + sc + ((s.buffer.drop 27).take sc).sum > s.buffer.length) := by
      omega
    rw [stream_next_succ, hscan]
    simp only [if_neg hns, if_neg h1, if_neg h2, if_pos hseg, hfind]

/-- State of the page layer once `eosPage` has been fully delivered: its 31
bytes still buffered, its single segment consumed, its packet in serial 1's
entry. -/
def c8aState : Stream :=
  { buffer := eosPage, stream_packets := [(1, [1, 2, 3])], segment := 1,
    packet_start := 31, packet_continued := false }

/-- Fresh page layer holding only the orphaned continuation page. -/
def c8bState : Stream :=
  { buffer := orphanPage, stream_packets := [], segment := 0, packet_start := 0,
    packet_continued := false }

theorem c8_eos_removal_no_orphan_recovery_witness :
    ((1 : Nat) ∉ ((Stream.next 1 c8aState).2.stream_packets.map Prod.fst)) ∧
    ((Stream.next 1 c8bState).2.packet_start = 28 ∧
      (Stream.next 1 c8bState).2.segment = 0 ∧
      (Stream.next 1 c8bState).2.stream_packets = []) := by
  constructor
  · obtain ⟨s2, h1, hb, hs, h4⟩ :=
      c8_eos_removal_no_orphan_recovery.1 0 c8aState false
        { bos := false, eos := true, granule_position := 0, stream_serial := 1,
          sequence := 0, checksum := 0 } 1 (by decide) rfl rfl (by decide)
    have e : (Stream.next 1 c8aState).2 = s2 := by rw [h1]; rfl
    rw [e]
    exact h4
  · have h :=
      c8_eos_removal_no_orphan_recovery.2 0 c8bState true
        { bos := false, eos := false, granule_position := 0, stream_serial := 1,
          sequence := 1, checksum := 0 } 1 (by decide) rfl (by decide) (by decide)
        (by decide)
    rw [h]
    exact ⟨rfl, rfl, rfl⟩

/-- **C6.** On a page accepted by the scanner with the segment cursor at 0 and
an entry recorded for the page's serial: if the page is not flagged continued
and the entry's buffer is non-empty, the buffer is cleared before any packet
of the page is assembled (head-without-tail); if the page is flagged continued
and the entry's buffer is empty, the leading run of 255-valued lacing values
plus the terminating value < 255 (when one exists) is skipped — segment cursor
and packet start advance past them — without appending any payload byte to any
buffer (tail-without-head). -/
theorem c6_segment_zero_recovery (f : Nat) (s : Stream) (continued : Bool)
    (hdr : PageHeader) (sc i : Nat)
    (hscan : scanPage s.buffer = .header continued hdr sc)
    (hseg : s.segment = 0) (hsc : sc ≠ 0)
    (hfit : 27 + sc + ((s.buffer.drop 27).take sc).sum ≤ s.buffer.length)
    (hfind : s.stream_packets.findIdx? (fun e => e.1 == hdr.stream_serial) = some i) :
    (continued = false → (s.stream_packets.getD i (0, [])).2 ≠ [] →
      Stream.next (f + 1) s =
        (some { segment_count := sc, segments := (s.buffer.drop 27).take sc,
                header := hdr },
         { s with packet_start := 27 + sc,
                  stream_packets := clearAt s.stream_packets i })) ∧
    (continued = true → (s.stream_packets.getD i (0, [])).2 = [] →
      Stream.next (f + 1) s =
        (some { segment_count := sc, segments := (s.buffer.drop 27).take sc,
                header := hdr },
         { s with
            packet_start := 27 + sc +
              (((s.buffer.drop 27).take sc).take
                (skipCount ((s.buffer.drop 27).take sc))).sum,
            segment := skipCount ((s.buffer.drop 27).take sc) }) ∧
      ((∃ v ∈ (s.buffer.drop 27).take sc, v ≠ 255) →
        skipCount ((s.buffer.drop 27).take sc) =
          (((s.buffer.drop 27).take sc).takeWhile (fun v => v == 255)).length + 1)) := by
  have hns : ¬ (s.segment = sc) := by omega
  have h1 : ¬ (27 + sc > s.buffer.length) := by omega
  have h2 : ¬ (27 + sc + ((s.buffer.drop 27).take sc).sum > s.buffer.length) := by omega
  rw [stream_next_succ, hscan]
  simp only [if_neg hns, if_neg h1, if_neg h2, if_pos hseg, hfind]
  constructor
  · intro hc hne
    have hne' : ¬ (s.stream_packets[i]?.getD (0, [])).2 = [] := by
      simpa [List.getD] using hne
    simp [hc, hseg, List.isEmpty_iff, hne']
  · intro hc hne
    refine ⟨?_, fun hterm => skipCount_eq_takeWhile _ hterm⟩
    have hne' : (s.stream_packets[i]?.getD (0, [])).2 = [] := by
      simpa [List.getD] using hne
    simp [hc, hseg, List.isEmpty_iff, hne']

/-- A page of serial 1, not continued, one 3-byte segment, while serial 1's
entry holds a stale non-empty buffer. -/
def c6HeadState : Stream :=
  { buffer := mkPage 0 z8 [1, 0, 0, 0] [0, 0, 0, 0] [0, 0, 0, 0] [3] [4, 5, 6],
    stream_packets := [(1, [9])], segment := 0, packet_start := 0,
    packet_continued := false }

/-- A continued page of serial 1 with lacing `[255, 2]`, while serial 1's
entry is empty. -/
def c6TailState : Stream :=
  { buffer := mkPage 1 z8 [1, 0, 0, 0] [0, 0, 0, 0] [0, 0, 0, 0] [255, 2]
      (List.replicate 257 8),
    stream_packets := [(1, [])], segment := 0, packet_start := 0,
    packet_continued := true }

theorem c6_segment_zero_recovery_witness :
    ((Stream.next 1 c6HeadState).2.stream_packets = [(1, [])]) ∧
    ((Stream.next 1 c6TailState).2.segment = 2 ∧
      (Stream.next 1 c6TailState).2.packet_start = 286 ∧
      (Stream.next 1 c6TailState).2.stream_packets = [(1, [])]) := by
  constructor
  · have h :=
      (c6_segment_zero_recovery 0 c6HeadState false
        { bos := false, eos := false, granule_position := 0, stream_serial := 1,
          sequence := 0, checksum := 0 } 1 0 (by decide) rfl (by decide) (by decide)
        (by decide)).1 rfl (by decide)
    rw [h]
    rfl
  · have h :=
      (c6_segment_zero_recovery 0 c6TailState true
        { bos := false, eos := false, granule_position := 0, stream_serial := 1,
          sequence := 0, checksum := 0 } 2 0 (by decide) rfl (by decide) (by decide)
        (by decide)).2 rfl (by decide)
    rw [h.1]
    exact ⟨rfl, by decide, rfl⟩

/-- **C7.** The scanner's byte-wise resynchronization: when the 4 bytes at the
buffer head are present but differ from `OggS`, exactly one byte is removed
and scanning resumes; when they match but the following version byte is
non-zero, exactly 5 bytes (pattern length plus one) are removed and scanning
resumes. -/
theorem c7_resynchronization (f : Nat) (s : Stream) :
    (4 ≤ s.buffer.length → s.buffer.take 4 ≠ oggSMagic →
      Stream.next (f + 1) s = Stream.next f { s with buffer := s.buffer.drop 1 } ∧
      (s.buffer.drop 1).length = s.buffer.length - 1) ∧
    (5 ≤ s.buffer.length → s.buffer.take 4 = oggSMagic → s.buffer.getD 4 0 ≠ 0 →
      Stream.next (f + 1) s = Stream.next f { s with buffer := s.buffer.drop 5 } ∧
      (s.buffer.drop 5).length = s.buffer.length - 5) := by
  constructor
  · intro h4 hm
    refine ⟨?_, by simp⟩
    rw [stream_next_succ, scanPage_resync1 h4 hm]
  · intro h5 hm hv
    refine ⟨?_, by simp⟩
    rw [stream_next_succ, scanPage_resync5 h5 hm hv]

theorem c7_resynchronization_witness :
    (Stream.next 1 ⟨[1, 2, 3, 4, 5], [], 0, 0, false⟩ =
        Stream.next 0 ⟨[2, 3, 4, 5], [], 0, 0, false⟩ ∧
      ([2, 3, 4, 5] : List Nat).length = 5 - 1) ∧
    (Stream.next 1 ⟨[0x4F, 0x67, 0x67, 0x53, 9, 1, 2, 3], [], 0, 0, false⟩ =
        Stream.next 0 ⟨[1, 2, 3], [], 0, 0, false⟩ ∧
      ([1, 2, 3] : List Nat).length = 8 - 5) :=
  ⟨(c7_resynchronization 0 ⟨[1, 2, 3, 4, 5], [], 0, 0, false⟩).1
      (by decide) (by decide),
   (c7_resynchronization 0 ⟨[0x4F, 0x67, 0x67, 0x53, 9, 1, 2, 3], [], 0, 0, false⟩).2
      (by decide) (by decide) (by decide)⟩

/-- **C9.** For any page's lacing values — at most 255 of them, each at most
255 — the saturating cumulative sum never saturates: it equals the exact
mathematical sum (which is at most 65025), and the saturating accumulation
performed per packet by `Page::next_inner` (`walkSegsAux`) likewise equals the
exact sum of the lacing values it consumes. -/
theorem c9_saturating_sum_exact (segs : List Nat) (hlen : segs.length ≤ 255)
    (hval : ∀ v ∈ segs, v ≤ 255) :
    satSum segs = segs.sum ∧ segs.sum ≤ 65025 ∧
    (walkSegsAux segs 0).1 = (segs.take (walkSegsAux segs 0).2.1).sum := by
  have hb : segs.sum ≤ 65025 := by
    have := sum_le_of_all_le hval
    nlinarith
  have hmax : segs.sum ≤ usizeMax := by
    have : (65025 : Nat) ≤ usizeMax := by norm_num [usizeMax]
    omega
  refine ⟨?_, hb, ?_⟩
  · rw [satSum, foldl_satAdd segs 0 (by omega)]
    omega
  · have := walkSegsAux_sum segs 0 (by omega)
    omega

theorem c9_saturating_sum_exact_witness :
    satSum [255, 255, 3] = ([255, 255, 3] : List Nat).sum ∧
    ([255, 255, 3] : List Nat).sum ≤ 65025 ∧
    (walkSegsAux [255, 255, 3] 0).1 =
      (([255, 255, 3] : List Nat).take (walkSegsAux [255, 255, 3] 0).2.1).sum :=
  c9_saturating_sum_exact [255, 255, 3] (by decide) (by decide)

/-- **C3.** In every state reachable from `Demuxer::new` by any sequence of
`push` and `next` calls, `tags` is `Some` only when `header` is; and (for any
demuxer state at all) `next` yields a packet only when both `header` and
`tags` are `Some`, returning `None` whenever either is `None`. -/
theorem c3_state_gating (ops : List Op) :
    ((applyOps Demuxer.new ops).tags.isSome → (applyOps Demuxer.new ops).header.isSome) ∧
    (∀ p d', (applyOps Demuxer.new ops).next = (some p, d') →
      (applyOps Demuxer.new ops).header.isSome ∧
        (applyOps Demuxer.new ops).tags.isSome) ∧
    ((applyOps Demuxer.new ops).header = none ∨ (applyOps Demuxer.new ops).tags = none →
      ((applyOps Demuxer.new ops).next).1 = none) := by
  have main : ∀ (ops : List Op) (d : Demuxer), (d.tags.isSome → d.header.isSome) →
      ((applyOps d ops).tags.isSome → (applyOps d ops).header.isSome) := by
    intro ops
    induction ops with
    | nil => intro d h; exact h
    | cons o rest ih =>
      intro d h
      cases o with
      | pushOp data => exact ih _ (push_inv d data h)
      | nextOp =>
        refine ih _ ?_
        simp only [applyOp]
        rw [(next_state d).1, (next_state d).2]
        exact h
  have inv := main ops Demuxer.new (by simp [Demuxer.new])
  refine ⟨inv, ?_, ?_⟩
  · intro p d' hnext
    set dd := applyOps Demuxer.new ops
    unfold Demuxer.next at hnext
    cases hh : dd.header with
    | none => simp [hh] at hnext
    | some h0 =>
      cases ht : dd.tags with
      | none => simp [hh, ht] at hnext
      | some t => simp [hh, ht]
  · intro hor
    set dd := applyOps Demuxer.new ops
    unfold Demuxer.next
    rcases hor with hh | ht
    · simp [hh]
    · cases hh : dd.header with
      | none => simp [hh]
      | some h0 => simp [hh, ht]

theorem c3_state_gating_witness :
    (applyOps Demuxer.new [Op.pushOp specPage1, Op.pushOp specPage2]).header.isSome :=
  (c3_state_gating [Op.pushOp specPage1, Op.pushOp specPage2]).1 (by decide)

/-- **C10.** In a state where the header is recorded and the tags are not,
a `push` call runs the tags-recognition loop over the whole packet queue (the
old queue followed by the newly reassembled packets): it never errors and
never changes the header; if no packet of the recorded serial beginning with
`OpusTags` is found, the entire queue is consumed (so none of those packets
can later be returned by `next` or stored as tags); otherwise the queue splits
as `dropped ++ tags-packet :: remaining` where every dropped packet either has
a different serial or lacks the comment magic, the matching packet is stored
as the tags, and only the remaining packets stay available. -/
theorem c10_tags_seek_consumes (d : Demuxer) (data : List Nat) (h : Header)
    (q1 : List Packet) (d' : Demuxer)
    (hh : d.header = some h) (ht : d.tags = none)
    (hq : q1 = d.queue ++ (drivePages ((d.stream.push data).buffer.length + 1)
      (d.stream.push data)).1)
    (hd : d' = (d.push data).2) :
    (d.push data).1 = none ∧
    d'.header = some h ∧
    (d'.tags = none → d'.queue = [] ∧
      ∀ p ∈ q1, ¬(p.serial = h.serial ∧ opusTagsMagic.isPrefixOf p.data)) ∧
    (∀ t, d'.tags = some t →
      t.serial = h.serial ∧ opusTagsMagic.isPrefixOf t.data ∧
      ∃ dropped, q1 = dropped ++ t :: d'.queue ∧
        ∀ p ∈ dropped, ¬(p.serial = h.serial ∧ opusTagsMagic.isPrefixOf p.data)) := by
  subst hq hd
  rw [push_result]
  simp only [hh]
  rw [pushTags_result]
  simp only [ht]
  rcases hseek : seekTags h.serial (d.queue ++ (drivePages
      ((d.stream.push data).buffer.length + 1) (d.stream.push data)).1) with ⟨t?, rest⟩
  cases t? with
  | none =>
    refine ⟨by trivial, by simp [hh], ?_, ?_⟩
    · intro _
      have := seekTags_none_spec h.serial (d.queue ++ (drivePages
        ((d.stream.push data).buffer.length + 1) (d.stream.push data)).1)
      rw [hseek] at this
      obtain ⟨h1, h2⟩ := this rfl
      exact ⟨by simpa using h1, h2⟩
    · intro t htg
      simp [ht] at htg
  | some t0 =>
    refine ⟨by trivial, by simp [hh], ?_, ?_⟩
    · intro habs
      simp at habs
    · intro t htg
      have htt : t0 = t := by simpa using htg
      subst htt
      have := seekTags_some_spec h.serial (d.queue ++ (drivePages
        ((d.stream.push data).buffer.length + 1) (d.stream.push data)).1) t0
      rw [hseek] at this
      obtain ⟨h1, h2, dropped, hqq, hdrop⟩ := this rfl
      exact ⟨h1, h2, dropped, by simpa using hqq, hdrop⟩

theorem c10_tags_seek_consumes_witness :
    ((Demuxer.new.push specPage1).2.push specPage2).1 = none :=
  (c10_tags_seek_consumes (Demuxer.new.push specPage1).2 specPage2
    { serial := 1, channels := 2, pre_skip := 312, output_gain := 0 } _ _
    (by decide) (by decide) rfl rfl).1

end OpusMux

namespace OpusMux

lemma stream_eta (s : Stream) (b : List Nat) (h : s.buffer = b) :
    ({ s with buffer := b } : Stream) = s := by
  rw [← h]

lemma drivePages_stall {e : List Nat} (hpp : PartialPage e) (F : Nat) (s : Stream)
    (hbuf : s.buffer = e) (hseg : s.segment = 0) :
    drivePages F s = ([], s) := by
  cases F with
  | zero => rfl
  | succ f =>
    have hnx := next_partial hpp s (s.buffer.length + 1) hbuf hseg
    simp only [drivePages, hnx]

/-- Driving the page loop from a fresh scan position (segment cursor 0):
the complete pages at the head of the buffer are processed identically
whatever the trailing partial bytes; those bytes remain buffered at the end
and the cursor is left at a fresh position. -/
lemma drivePages_fresh (ps : List PageImage) (F F' : Nat) (s : Stream)
    (u v : List Nat)
    (hwall : ∀ p ∈ ps, p.WF) (hpu : PartialPage u) (hpv : PartialPage v)
    (hsb : s.buffer = joinPages ps ++ u) (hseg : s.segment = 0)
    (hF : ps.length < F) (hF' : ps.length < F') :
    drivePages F' { s with buffer := joinPages ps ++ v } =
      ((drivePages F s).1, { (drivePages F s).2 with buffer := v }) ∧
    (drivePages F s).2.buffer = u ∧
    (drivePages F s).2.segment = 0 := by
  cases ps with
  | nil =>
    have hbu : s.buffer = u := by simpa [joinPages] using hsb
    have h1 : drivePages F s = ([], s) := drivePages_stall hpu F s hbu hseg
    have h2 : drivePages F' { s with buffer := joinPages [] ++ v } =
        ([], { s with buffer := joinPages [] ++ v }) :=
      drivePages_stall hpv F' _ (by simp [joinPages]) hseg
    refine ⟨?_, ?_, ?_⟩
    · rw [h2, h1]
      simp [joinPages]
    · rw [h1]; exact hbu
    · rw [h1]; exact hseg
  | cons p1 ps' =>
    simp only [List.length_cons] at hF hF'
    have hw1 : p1.WF := hwall p1 (by simp)
    have hwall' : ∀ p ∈ ps', p.WF := fun p hp => hwall p (by simp [hp])
    obtain ⟨f, rfl⟩ : ∃ f, F = f + 1 := ⟨F - 1, by omega⟩
    obtain ⟨f', rfl⟩ : ∃ f', F' = f' + 1 := ⟨F' - 1, by omega⟩
    have hsb1 : s.buffer = p1.bytes ++ (joinPages ps' ++ u) := by
      simpa [joinPages_cons, List.append_assoc] using hsb
    have hnx : Stream.next (s.buffer.length + 1) s =
        (some p1.ctx, recoverStep p1.cont p1.hdr.stream_serial p1.lacing s) :=
      next_accept hw1 s.buffer.length hsb1 hseg
    have hnx' : Stream.next
        (({ s with buffer := joinPages (p1 :: ps') ++ v } : Stream).buffer.length + 1)
        { s with buffer := joinPages (p1 :: ps') ++ v } =
        (some p1.ctx, recoverStep p1.cont p1.hdr.stream_serial p1.lacing
          { s with buffer := joinPages (p1 :: ps') ++ v }) :=
      next_accept hw1 _
        (show ({ s with buffer := joinPages (p1 :: ps') ++ v } : Stream).buffer =
          p1.bytes ++ (joinPages ps' ++ v) from by
          simp [joinPages_cons, List.append_assoc]) hseg
    have hrec := recoverStep_post hw1 p1.cont p1.hdr.stream_serial s hseg
    obtain ⟨hrb, hrc, hrle, hrinv⟩ := hrec
    set rd : Stream := recoverStep p1.cont p1.hdr.stream_serial p1.lacing s with hrd
    have hrbuf : rd.buffer = p1.bytes ++ (joinPages ps' ++ u) := by
      rw [hrb]; exact hsb1
    have hrswap : recoverStep p1.cont p1.hdr.stream_serial p1.lacing
        { s with buffer := joinPages (p1 :: ps') ++ v } =
        { rd with buffer := p1.bytes ++ (joinPages ps' ++ v) } := by
      rw [show ({ s with buffer := joinPages (p1 :: ps') ++ v } : Stream) =
        { s with buffer := p1.bytes ++ (joinPages ps' ++ v) } from by
          simp [joinPages_cons, List.append_assoc]]
      rw [recoverStep_swap, hrd]
    obtain ⟨hpswap, hpb, hpseg, hpps⟩ :=
      pagePackets_run hw1 rd (joinPages ps' ++ u) (joinPages ps' ++ v) hrbuf hrle hrinv
    set sp : Stream := (pagePackets p1.ctx rd).2 with hsp
    have hspb : sp.buffer = p1.bytes ++ (joinPages ps' ++ u) := by
      rw [hpb, hrbuf]
    obtain ⟨ihswap, ihb, ihseg, ihps⟩ :=
      drivePages_post ps' f f' p1 sp u v hw1 hwall' hpu hpv hspb hpseg hpps
        (by omega) (by omega)
    refine ⟨?_, ?_, ?_⟩
    · simp only [drivePages, hnx, hnx', hrswap, hpswap, ← hsp, ihswap]
    · simp only [drivePages, hnx, ← hsp]
      exact ihb
    · simp only [drivePages, hnx, ← hsp]
      exact ihseg

/-- Fuel does not matter for the post-page drive, provided it covers the
remaining pages. -/
lemma drivePages_post_fuel (ps : List PageImage) (F F' : Nat) (p0 : PageImage)
    (s : Stream) (u : List Nat)
    (hw0 : p0.WF) (hwall : ∀ p ∈ ps, p.WF) (hpu : PartialPage u)
    (hsb : s.buffer = p0.bytes ++ (joinPages ps ++ u))
    (hseg : s.segment = p0.lacing.length)
    (hps : s.packet_start = p0.bytes.length)
    (hF : ps.length < F) (hF' : ps.length < F') :
    drivePages F' s = drivePages F s := by
  obtain ⟨hswap, hb, _, _⟩ :=
    drivePages_post ps F F' p0 s u u hw0 hwall hpu hpu hsb hseg hps hF hF'
  rw [stream_eta _ _ hsb] at hswap
  rw [hswap, stream_eta _ _ hb]

/-- Fuel does not matter for the fresh drive either. -/
lemma drivePages_fresh_fuel (ps : List PageImage) (F F' : Nat) (s : Stream)
    (u : List Nat)
    (hwall : ∀ p ∈ ps, p.WF) (hpu : PartialPage u)
    (hsb : s.buffer = joinPages ps ++ u) (hseg : s.segment = 0)
    (hF : ps.length < F) (hF' : ps.length < F') :
    drivePages F' s = drivePages F s := by
  obtain ⟨hswap, hb, _⟩ :=
    drivePages_fresh ps F F' s u u hwall hpu hpu hsb hseg hF hF'
  rw [stream_eta _ _ hsb] at hswap
  rw [hswap, stream_eta _ _ hb]

end OpusMux

namespace OpusMux

/-- Splitting the drive after a delivered page `p0`: appending `m` to the
buffer and driving once is the same as driving the current buffer, appending
`m` to what remains, and driving again; packets concatenate in order. -/
lemma drivePages_split_post :
    ∀ (ps₁ : List PageImage) (ps₂ : List PageImage) (p0 : PageImage)
      (e w m : List Nat) (F F₁ F₂ : Nat) (s : Stream),
    p0.WF → (∀ p ∈ ps₁, p.WF) → (∀ p ∈ ps₂, p.WF) →
    PartialPage e → PartialPage w →
    s.buffer = p0.bytes ++ (joinPages ps₁ ++ e) →
    s.segment = p0.lacing.length →
    s.packet_start = p0.bytes.length →
    e ++ m = joinPages ps₂ ++ w →
    ps₁.length < F₁ → ps₂.length < F₂ → ps₁.length + ps₂.length < F →
    drivePages F { s with buffer := s.buffer ++ m } =
      ((drivePages F₁ s).1 ++
        (drivePages F₂ { (drivePages F₁ s).2 with buffer := e ++ m }).1,
       (drivePages F₂ { (drivePages F₁ s).2 with buffer := e ++ m }).2) := by
  intro ps₁
  induction ps₁ with
  | nil =>
    intro ps₂ p0 e w m F F₁ F₂ s hw0 _ hw2 hpe hpw hsb hseg hps he hF₁ hF₂ hF
    simp only [List.length_nil, Nat.zero_add] at hF
    obtain ⟨f, rfl⟩ : ∃ f, F = f + 1 := ⟨F - 1, by omega⟩
    obtain ⟨f₁, rfl⟩ : ∃ f₁, F₁ = f₁ + 1 := ⟨F₁ - 1, by omega⟩
    have hsb' : s.buffer = p0.bytes ++ e := by simpa [joinPages] using hsb
    set sd : Stream :=
      { s with
          segment := 0
          buffer := e
          stream_packets := eosStep p0.hdr.eos p0.hdr.stream_serial
            s.stream_packets } with hsd
    set sdm : Stream :=
      { s with
          segment := 0
          buffer := e ++ m
          stream_packets := eosStep p0.hdr.eos p0.hdr.stream_serial
            s.stream_packets } with hsdm
    have hnx : Stream.next (s.buffer.length + 1) s = (none, sd) := by
      rw [next_drain hw0 _ hsb' hseg hps]
      exact next_partial hpe _ _ rfl rfl
    have hstage1 : drivePages (f₁ + 1) s = ([], sd) := by
      simp only [drivePages, hnx]
    have hsdm' : ({ sd with buffer := e ++ m } : Stream) = sdm := rfl
    have hbm : s.buffer ++ m = p0.bytes ++ (e ++ m) := by
      rw [hsb']; simp [List.append_assoc]
    have hnxL : Stream.next
        (({ s with buffer := s.buffer ++ m } : Stream).buffer.length + 1)
        { s with buffer := s.buffer ++ m } =
        Stream.next ({ s with buffer := s.buffer ++ m } : Stream).buffer.length
          sdm := by
      rw [next_drain hw0 _ (show ({ s with buffer := s.buffer ++ m } : Stream).buffer
          = p0.bytes ++ (e ++ m) from hbm) (by simpa using hseg) (by simpa using hps)]
    cases ps₂ with
    | nil =>
      have hew : e ++ m = w := by simpa [joinPages] using he
      have hpem : PartialPage (e ++ m) := hew ▸ hpw
      have hnxL2 : Stream.next
          (({ s with buffer := s.buffer ++ m } : Stream) : Stream).buffer.length
            sdm = (none, sdm) :=
        next_partial hpem _ _ rfl rfl
      have hstage2 : drivePages F₂ sdm = ([], sdm) :=
        drivePages_stall hpem F₂ sdm rfl rfl
      rw [hstage1]
      dsimp only
      rw [hsdm', hstage2]
      simp only [drivePages, hnxL, hnxL2]
      simp
    | cons q qs =>
      simp only [List.length_cons] at hF₂ hF
      obtain ⟨f₂, rfl⟩ : ∃ f₂, F₂ = f₂ + 1 := ⟨F₂ - 1, by omega⟩
      have hwq : q.WF := hw2 q (by simp)
      have hwqs : ∀ p ∈ qs, p.WF := fun p hp => hw2 p (by simp [hp])
      have hsdmb : sdm.buffer = q.bytes ++ (joinPages qs ++ w) := by
        show e ++ m = _
        simpa [joinPages_cons, List.append_assoc] using he
      have hL1 : 1 ≤ ({ s with buffer := s.buffer ++ m } : Stream).buffer.length := by
        show 1 ≤ (s.buffer ++ m).length
        rw [hbm]
        have := bytes_length hw0
        simp
        omega
      obtain ⟨L, hLe⟩ : ∃ L,
          ({ s with buffer := s.buffer ++ m } : Stream).buffer.length = L + 1 :=
        ⟨({ s with buffer := s.buffer ++ m } : Stream).buffer.length - 1, by omega⟩
      have hnxL2 : Stream.next
          (({ s with buffer := s.buffer ++ m } : Stream).buffer.length) sdm =
          (some q.ctx, recoverStep q.cont q.hdr.stream_serial q.lacing sdm) := by
        rw [hLe]
        exact next_accept hwq L hsdmb rfl
      have hnx2 : Stream.next (sdm.buffer.length + 1) sdm =
          (some q.ctx, recoverStep q.cont q.hdr.stream_serial q.lacing sdm) :=
        next_accept hwq _ hsdmb rfl
      have hrec := recoverStep_post hwq q.cont q.hdr.stream_serial sdm rfl
      obtain ⟨hrb, _, hrle, hrinv⟩ := hrec
      set rd : Stream := recoverStep q.cont q.hdr.stream_serial q.lacing sdm with hrd
      have hrbuf : rd.buffer = q.bytes ++ (joinPages qs ++ w) := by
        rw [hrb]; exact hsdmb
      obtain ⟨_, hpb, hpseg, hpps⟩ :=
        pagePackets_run hwq rd (joinPages qs ++ w) (joinPages qs ++ w) hrbuf hrle hrinv
      set sp : Stream := (pagePackets q.ctx rd).2 with hsp
      have hspb : sp.buffer = q.bytes ++ (joinPages qs ++ w) := by
        rw [hpb, hrbuf]
      have hfuel : drivePages f sp = drivePages f₂ sp :=
        drivePages_post_fuel qs f₂ f q sp w hwq hwqs hpw hspb hpseg hpps
          (by omega) (by omega)
      rw [hstage1]
      dsimp only
      rw [hsdm']
      simp only [drivePages, hnxL, hnxL2, hnx2, ← hsp, hfuel]
      simp
  | cons p1 ps₁' ih =>
    intro ps₂ p0 e w m F F₁ F₂ s hw0 hwall hw2 hpe hpw hsb hseg hps he hF₁ hF₂ hF
    simp only [List.length_cons] at hF₁ hF
    have hw1 : p1.WF := hwall p1 (by simp)
    have hwall' : ∀ p ∈ ps₁', p.WF := fun p hp => hwall p (by simp [hp])
    obtain ⟨f, rfl⟩ : ∃ f, F = f + 1 := ⟨F - 1, by omega⟩
    obtain ⟨f₁, rfl⟩ : ∃ f₁, F₁ = f₁ + 1 := ⟨F₁ - 1, by omega⟩
    set sd : Stream :=
      { s with
          segment := 0
          buffer := p1.bytes ++ (joinPages ps₁' ++ e)
          stream_packets := eosStep p0.hdr.eos p0.hdr.stream_serial
            s.stream_packets } with hsd
    set sdm : Stream :=
      { s with
          segment := 0
          buffer := p1.bytes ++ (joinPages ps₁' ++ (e ++ m))
          stream_packets := eosStep p0.hdr.eos p0.hdr.stream_serial
            s.stream_packets } with hsdm
    have hnx : Stream.next (s.buffer.length + 1) s =
        (some p1.ctx, recoverStep p1.cont p1.hdr.stream_serial p1.lacing sd) := by
      rw [next_drain hw0 _
        (show s.buffer = p0.bytes ++ (p1.bytes ++ (joinPages ps₁' ++ e)) from by
          simp [hsb, joinPages_cons])
        hseg hps]
      have hL : 1 ≤ s.buffer.length := by
        rw [hsb]
        have := bytes_length hw0
        simp
        omega
      obtain ⟨L, hLe⟩ : ∃ L, s.buffer.length = L + 1 := ⟨s.buffer.length - 1, by omega⟩
      rw [hLe]
      exact next_accept hw1 L rfl rfl
    have hbm : s.buffer ++ m = p0.bytes ++ (p1.bytes ++ (joinPages ps₁' ++ (e ++ m))) := by
      rw [hsb]; simp [joinPages_cons, List.append_assoc]
    have hnxL : Stream.next
        (({ s with buffer := s.buffer ++ m } : Stream).buffer.length + 1)
        { s with buffer := s.buffer ++ m } =
        (some p1.ctx, recoverStep p1.cont p1.hdr.stream_serial p1.lacing sdm) := by
      rw [next_drain hw0 _ (show ({ s with buffer := s.buffer ++ m } : Stream).buffer
          = p0.bytes ++ (p1.bytes ++ (joinPages ps₁' ++ (e ++ m))) from hbm)
        (by simpa using hseg) (by simpa using hps)]
      have hL : 1 ≤ ({ s with buffer := s.buffer ++ m } : Stream).buffer.length := by
        show 1 ≤ (s.buffer ++ m).length
        rw [hbm]
        have := bytes_length hw0
        simp
        omega
      obtain ⟨L, hLe⟩ : ∃ L,
          ({ s with buffer := s.buffer ++ m } : Stream).buffer.length = L + 1 :=
        ⟨({ s with buffer := s.buffer ++ m } : Stream).buffer.length - 1, by omega⟩
      rw [hLe]
      exact next_accept hw1 L rfl rfl
    have hrec := recoverStep_post hw1 p1.cont p1.hdr.stream_serial sd rfl
    obtain ⟨hrb, _, hrle, hrinv⟩ := hrec
    set rd : Stream := recoverStep p1.cont p1.hdr.stream_serial p1.lacing sd with hrd
    have hrbuf : rd.buffer = p1.bytes ++ (joinPages ps₁' ++ e) := by
      rw [hrb]
    have hrswap : recoverStep p1.cont p1.hdr.stream_serial p1.lacing sdm =
        { rd with buffer := p1.bytes ++ (joinPages ps₁' ++ (e ++ m)) } := by
      rw [show sdm = { sd with buffer := p1.bytes ++ (joinPages ps₁' ++ (e ++ m)) } from rfl]
      rw [recoverStep_swap, hrd]
    obtain ⟨hpswap, hpb, hpseg, hpps⟩ :=
      pagePackets_run hw1 rd (joinPages ps₁' ++ e) (joinPages ps₁' ++ (e ++ m))
        hrbuf hrle hrinv
    set sp : Stream := (pagePackets p1.ctx rd).2 with hsp
    have hspb : sp.buffer = p1.bytes ++ (joinPages ps₁' ++ e) := by
      rw [hpb, hrbuf]
    have hspbm : sp.buffer ++ m = p1.bytes ++ (joinPages ps₁' ++ (e ++ m)) := by
      rw [hspb]; simp [List.append_assoc]
    have ihapp := ih ps₂ p1 e w m f f₁ F₂ sp hw1 hwall' hw2 hpe hpw hspb hpseg hpps
      he (by omega) hF₂ (by omega)
    rw [show ({ sp with buffer := sp.buffer ++ m } : Stream) =
      { sp with buffer := p1.bytes ++ (joinPages ps₁' ++ (e ++ m)) } from by
        rw [hspbm]] at ihapp
    simp only [drivePages, hnx, hnxL, hrswap, hpswap, ← hsp, ihapp]
    simp

end OpusMux

namespace OpusMux

/-- Splitting the drive at a fresh scan position: appending `m` and driving
once equals driving, appending `m` to the remainder, and driving again. -/
lemma drivePages_split (ps₁ ps₂ : List PageImage) (e w m : List Nat)
    (F F₁ F₂ : Nat) (s : Stream)
    (hwall : ∀ p ∈ ps₁, p.WF) (hw2 : ∀ p ∈ ps₂, p.WF)
    (hpe : PartialPage e) (hpw : PartialPage w)
    (hsb : s.buffer = joinPages ps₁ ++ e) (hseg : s.segment = 0)
    (he : e ++ m = joinPages ps₂ ++ w)
    (hF₁ : ps₁.length < F₁) (hF₂ : ps₂.length < F₂)
    (hF : ps₁.length + ps₂.length < F) :
    drivePages F { s with buffer := s.buffer ++ m } =
      ((drivePages F₁ s).1 ++
        (drivePages F₂ { (drivePages F₁ s).2 with buffer := e ++ m }).1,
       (drivePages F₂ { (drivePages F₁ s).2 with buffer := e ++ m }).2) := by
  cases ps₁ with
  | nil =>
    simp only [List.length_nil, Nat.zero_add] at hF
    have hsb' : s.buffer = e := by simpa [joinPages] using hsb
    have hstage1 : drivePages F₁ s = ([], s) := drivePages_stall hpe F₁ s hsb' hseg
    rw [hstage1]
    dsimp only
    rw [hsb']
    have hfuel : drivePages F ({ s with buffer := e ++ m } : Stream) =
        drivePages F₂ ({ s with buffer := e ++ m } : Stream) :=
      drivePages_fresh_fuel ps₂ F₂ F _ w hw2 hpw (by simpa using he)
        (by simpa using hseg) hF₂ hF
    rw [hfuel]
    simp
  | cons p1 ps₁' =>
    simp only [List.length_cons] at hF₁ hF
    have hw1 : p1.WF := hwall p1 (by simp)
    have hwall' : ∀ p ∈ ps₁', p.WF := fun p hp => hwall p (by simp [hp])
    obtain ⟨f, rfl⟩ : ∃ f, F = f + 1 := ⟨F - 1, by omega⟩
    obtain ⟨f₁, rfl⟩ : ∃ f₁, F₁ = f₁ + 1 := ⟨F₁ - 1, by omega⟩
    have hsb1 : s.buffer = p1.bytes ++ (joinPages ps₁' ++ e) := by
      simpa [joinPages_cons, List.append_assoc] using hsb
    have hnx : Stream.next (s.buffer.length + 1) s =
        (some p1.ctx, recoverStep p1.cont p1.hdr.stream_serial p1.lacing s) :=
      next_accept hw1 s.buffer.length hsb1 hseg
    have hbm : s.buffer ++ m = p1.bytes ++ (joinPages ps₁' ++ (e ++ m)) := by
      rw [hsb1]; simp [List.append_assoc]
    have hnxL : Stream.next
        (({ s with buffer := s.buffer ++ m } : Stream).buffer.length + 1)
        { s with buffer := s.buffer ++ m } =
        (some p1.ctx, recoverStep p1.cont p1.hdr.stream_serial p1.lacing
          { s with buffer := s.buffer ++ m }) :=
      next_accept hw1 _
        (show ({ s with buffer := s.buffer ++ m } : Stream).buffer =
          p1.bytes ++ (joinPages ps₁' ++ (e ++ m)) from hbm) hseg
    have hrec := recoverStep_post hw1 p1.cont p1.hdr.stream_serial s hseg
    obtain ⟨hrb, _, hrle, hrinv⟩ := hrec
    set rd : Stream := recoverStep p1.cont p1.hdr.stream_serial p1.lacing s with hrd
    have hrbuf : rd.buffer = p1.bytes ++ (joinPages ps₁' ++ e) := by
      rw [hrb]; exact hsb1
    have hrswap : recoverStep p1.cont p1.hdr.stream_serial p1.lacing
        { s with buffer := s.buffer ++ m } =
        { rd with buffer := p1.bytes ++ (joinPages ps₁' ++ (e ++ m)) } := by
      rw [show ({ s with buffer := s.buffer ++ m } : Stream) =
        { s with buffer := p1.bytes ++ (joinPages ps₁' ++ (e ++ m)) } from by rw [hbm]]
      rw [recoverStep_swap, hrd]
    obtain ⟨hpswap, hpb, hpseg, hpps⟩ :=
      pagePackets_run hw1 rd (joinPages ps₁' ++ e) (joinPages ps₁' ++ (e ++ m))
        hrbuf hrle hrinv
    set sp : Stream := (pagePackets p1.ctx rd).2 with hsp
    have hspb : sp.buffer = p1.bytes ++ (joinPages ps₁' ++ e) := by
      rw [hpb, hrbuf]
    have hspbm : sp.buffer ++ m = p1.bytes ++ (joinPages ps₁' ++ (e ++ m)) := by
      rw [hspb]; simp [List.append_assoc]
    have ihapp := drivePages_split_post ps₁' ps₂ p1 e w m f f₁ F₂ sp hw1 hwall' hw2
      hpe hpw hspb hpseg hpps he (by omega) hF₂ (by omega)
    rw [show ({ sp with buffer := sp.buffer ++ m } : Stream) =
      { sp with buffer := p1.bytes ++ (joinPages ps₁' ++ (e ++ m)) } from by
        rw [hspbm]] at ihapp
    simp only [drivePages, hnx, hnxL, hrswap, hpswap, ← hsp, ihapp]
    simp

end OpusMux

namespace OpusMux

lemma partialPage_of_append {u t w : List Nat} (hw : PartialPage w)
    (h : u ++ t = w) : PartialPage u := by
  rcases hw with rfl | ⟨p, q, hwp, hpq, hq⟩
  · left
    have := List.append_eq_nil.mp h
    exact this.1
  · by_cases ht : t ++ q = []
    · obtain ⟨rfl, rfl⟩ := List.append_eq_nil.mp ht
      right
      exact ⟨p, [], hwp, by simpa [← h] using hpq, by simp at hq⟩
    · right
      refine ⟨p, t ++ q, hwp, ?_, ht⟩
      rw [← h] at hpq
      simpa [List.append_assoc] using hpq
  
lemma bytes_length_pos {p : PageImage} (hw : p.WF) : 28 ≤ p.bytes.length := by
  have := bytes_length hw
  obtain ⟨h1, _⟩ := hw
  omega

lemma pages_le_join_length : ∀ (ps : List PageImage), (∀ p ∈ ps, p.WF) →
    ps.length ≤ (joinPages ps).length := by
  intro ps
  induction ps with
  | nil => simp [joinPages]
  | cons p ps' ih =>
    intro hwf
    have h1 := bytes_length_pos (hwf p (by simp))
    have h2 := ih (fun x hx => hwf x (by simp [hx]))
    rw [joinPages_cons]
    simp
    omega

/-- Any split point of a page sequence followed by a partial tail falls either
on a page boundary or inside one page: the head is some complete pages plus a
partial page, and the partial page completes into the remaining pages. -/
lemma split_pages (PS : List PageImage) : ∀ (u v w : List Nat),
    (∀ p ∈ PS, p.WF) → PartialPage w →
    u ++ v = joinPages PS ++ w →
    ∃ qs rs extra, PS = qs ++ rs ∧ u = joinPages qs ++ extra ∧
      PartialPage extra ∧ extra ++ v = joinPages rs ++ w := by
  induction PS with
  | nil =>
    intro u v w _ hpw hu
    have hu' : u ++ v = w := by simpa [joinPages] using hu
    exact ⟨[], [], u, by simp, by simp [joinPages],
      partialPage_of_append hpw hu', by simpa [joinPages] using hu'⟩
  | cons p PS' ih =>
    intro u v w hwf hpw hu
    have hwp : p.WF := hwf p (by simp)
    have hwf' : ∀ x ∈ PS', x.WF := fun x hx => hwf x (by simp [hx])
    have hu' : u ++ v = p.bytes ++ (joinPages PS' ++ w) := by
      simpa [joinPages_cons, List.append_assoc] using hu
    by_cases hlen : u.length < p.bytes.length
    · refine ⟨[], p :: PS', u, by simp, by simp [joinPages], ?_, by
        simpa [joinPages_cons, List.append_assoc] using hu'⟩
      have htk : u = p.bytes.take u.length := by
        have h1 : (u ++ v).take u.length = u := by
          rw [List.take_append_of_le_length (by simp)]
          exact List.take_length u  -- u.take u.length = u
        rw [hu'] at h1
        rw [List.take_append_of_le_length (by omega)] at h1
        exact h1.symm
      right
      refine ⟨p, p.bytes.drop u.length, hwp, ?_, ?_⟩
      · conv_lhs => rw [← List.take_append_drop u.length p.bytes]
        rw [← htk]
      · intro h0
        have := congrArg List.length h0
        simp at this
        omega
    · push_neg at hlen
      have htk : u.take p.bytes.length = p.bytes := by
        have h1 : (u ++ v).take p.bytes.length = u.take p.bytes.length :=
          List.take_append_of_le_length hlen
        rw [hu'] at h1
        rw [List.take_append_of_le_length (le_refl _)] at h1
        rw [← h1]
        exact List.take_length p.bytes
      have hudecomp : u = p.bytes ++ u.drop p.bytes.length := by
        conv_lhs => rw [← List.take_append_drop p.bytes.length u]
        rw [htk]
      have huv : u.drop p.bytes.length ++ v = joinPages PS' ++ w := by
        apply List.append_cancel_left
        rw [← List.append_assoc, ← hudecomp]
        exact hu'
      obtain ⟨qs, rs, extra, hPS, huq, hpx, hev⟩ := ih _ v w hwf' hpw huv
      refine ⟨p :: qs, rs, extra, by simp [hPS], ?_, hpx, hev⟩
      rw [hudecomp, huq, joinPages_cons, List.append_assoc]

end OpusMux

namespace OpusMux

/-- The post-drive queue processing of `Demuxer::push` (src/lib.rs lines
90-144) as a function of the recorded header, recorded tags, and packet
queue: run the header-recognition loop if the header is missing, then the
tags-recognition loop if the tags are missing. -/
def procQueue (hdr : Option Header) (tags : Option Packet) (q : List Packet) :
    Option PushErr × Option Header × Option Packet × List Packet :=
  match hdr with
  | some h =>
    match tags with
    | some t => (none, some h, some t, q)
    | none =>
      match seekTags h.serial q with
      | (some t, rest) => (none, some h, some t, rest)
      | (none, rest) => (none, some h, none, rest)
  | none =>
    match seekHeader q with
    | (some e, _, rest) => (some e, none, none, rest)
    | (none, some h, rest) =>
      match seekTags h.serial rest with
      | (some t, rest2) => (none, some h, some t, rest2)
      | (none, rest2) => (none, some h, none, rest2)
    | (none, none, rest) => (none, none, none, rest)

/-- `Demuxer.push`, refactored as stream drive plus queue processing. -/
def pushSplit (d : Demuxer) (data : List Nat) : Option PushErr × Demuxer :=
  let st0 := d.stream.push data
  let dr := drivePages (st0.buffer.length + 1) st0
  let r := procQueue d.header d.tags (d.queue ++ dr.1)
  (r.1, { stream := dr.2, queue := r.2.2.2, header := r.2.1, tags := r.2.2.1 })

lemma push_eq_pushSplit (d : Demuxer) (data : List Nat)
    (hinv : d.header = none → d.tags = none) :
    d.push data = pushSplit d data := by
  cases hh : d.header with
  | some h =>
    cases ht : d.tags with
    | some t =>
      simp only [Demuxer.push, pushSplit, procQueue, pushTags, hh, ht]
    | none =>
      simp only [Demuxer.push, pushSplit, procQueue, pushTags, hh, ht]
      cases hs : seekTags h.serial
          (d.queue ++ (drivePages ((d.stream.push data).buffer.length + 1)
            (d.stream.push data)).1) with
      | mk t2 rest =>
        cases t2 <;> simp only [hs]
  | none =>
    have ht : d.tags = none := hinv hh
    simp only [Demuxer.push, pushSplit, procQueue, pushTags, hh, ht]
    cases hs : seekHeader
        (d.queue ++ (drivePages ((d.stream.push data).buffer.length + 1)
          (d.stream.push data)).1) with
    | mk e1 rest1 =>
      cases e1 with
      | some e => simp only [hs]
      | none =>
        cases rest1 with
        | mk h2 rest =>
          cases h2 with
          | none => simp only [hs]
          | some h =>
            simp only [hs]
            cases hs2 : seekTags h.serial rest with
            | mk t2 rest2 =>
              cases t2 <;> simp only [hs2]

lemma seekHeader_append (q₁ q₂ : List Packet) :
    seekHeader (q₁ ++ q₂) =
      match seekHeader q₁ with
      | (none, none, _) => seekHeader q₂
      | (some e, hh, r) => (some e, hh, r ++ q₂)
      | (none, some h, r) => (none, some h, r ++ q₂) := by
  induction q₁ with
  | nil => simp [seekHeader]
  | cons pkt rest ih =>
    simp only [List.cons_append, seekHeader]
    by_cases h1 : !pkt.first_in_stream
    · rw [if_pos h1, if_pos h1]
      exact ih
    · rw [if_neg h1, if_neg h1]
      by_cases h2 : !(opusHeadMagic.isPrefixOf pkt.data)
      · rw [if_pos h2, if_pos h2]
        exact ih
      · rw [if_neg h2, if_neg h2]
        cases h8 : pkt.data.get? 8 with
        | none => simp
        | some v =>
          dsimp only
          by_cases hv : v &&& 0xF0 ≠ 0
          · rw [if_pos hv, if_pos hv]
            exact ih
          · rw [if_neg hv, if_neg hv]
            cases h9 : pkt.data.get? 9 with
            | none => simp
            | some ch =>
              cases h10 : pkt.data.get? 10 with
              | none => cases h11 : pkt.data.get? 11 <;> simp
              | some b10 =>
                cases h11 : pkt.data.get? 11 with
                | none => simp
                | some b11 =>
                  cases h16 : pkt.data.get? 16 with
                  | none => cases h17 : pkt.data.get? 17 <;> simp
                  | some b16 =>
                    cases h17 : pkt.data.get? 17 with
                    | none => simp
                    | some b17 => simp

lemma seekHeader_cases (q : List Packet) :
    (∃ e hh r, seekHeader q = (some e, hh, r)) ∨
    (∃ h r, seekHeader q = (none, some h, r)) ∨
    seekHeader q = (none, none, []) := by
  induction q with
  | nil => right; right; rfl
  | cons pkt rest ih =>
    by_cases h1 : !pkt.first_in_stream
    · have he : seekHeader (pkt :: rest) = seekHeader rest := by
        simp only [seekHeader]; rw [if_pos h1]
      rw [he]; exact ih
    · by_cases h2 : !(opusHeadMagic.isPrefixOf pkt.data)
      · have he : seekHeader (pkt :: rest) = seekHeader rest := by
          simp only [seekHeader]; rw [if_neg h1, if_pos h2]
        rw [he]; exact ih
      · cases h8 : pkt.data.get? 8 with
        | none =>
          refine Or.inl ⟨.malformed, none, rest, ?_⟩
          simp only [seekHeader]
          rw [if_neg h1, if_neg h2, h8]
        | some v =>
          by_cases hv : v &&& 0xF0 ≠ 0
          · have he : seekHeader (pkt :: rest) = seekHeader rest := by
              simp only [seekHeader]; rw [if_neg h1, if_neg h2, h8]
              dsimp only
              rw [if_pos hv]
            rw [he]; exact ih
          · cases h9 : pkt.data.get? 9 with
            | none =>
              refine Or.inl ⟨.panicked, none, rest, ?_⟩
              simp only [seekHeader]
              rw [if_neg h1, if_neg h2, h8]
              dsimp only
              rw [if_neg hv, h9]
            | some ch =>
              cases h10 : pkt.data.get? 10 with
              | none =>
                refine Or.inl ⟨.malformed, none, rest, ?_⟩
                simp only [seekHeader]
                rw [if_neg h1, if_neg h2, h8]
                dsimp only
                rw [if_neg hv, h9]
                dsimp only
                rw [h10]
              | some b10 =>
                cases h11 : pkt.data.get? 11 with
                | none =>
                  refine Or.inl ⟨.malformed, none, rest, ?_⟩
                  simp only [seekHeader]
                  rw [if_neg h1, if_neg h2, h8]
                  dsimp only
                  rw [if_neg hv, h9]
                  dsimp only
                  rw [h10, h11]
                | some b11 =>
                  cases h16 : pkt.data.get? 16 with
                  | none =>
                    refine Or.inl ⟨.malformed, none, rest, ?_⟩
                    simp only [seekHeader]
                    rw [if_neg h1, if_neg h2, h8]
                    dsimp only
                    rw [if_neg hv, h9]
                    dsimp only
                    rw [h10, h11]
                    dsimp only
                    rw [h16]
                  | some b16 =>
                    cases h17 : pkt.data.get? 17 with
                    | none =>
                      refine Or.inl ⟨.malformed, none, rest, ?_⟩
                      simp only [seekHeader]
                      rw [if_neg h1, if_neg h2, h8]
                      dsimp only
                      rw [if_neg hv, h9]
                      dsimp only
                      rw [h10, h11]
                      dsimp only
                      rw [h16, h17]
                    | some b17 =>
                      right; left
                      refine ⟨{ serial := pkt.serial, channels := ch,
                                pre_skip := b10 + 256 * b11,
                                output_gain := toI16 (b16 + 256 * b17) }, rest, ?_⟩
                      simp only [seekHeader]
                      rw [if_neg h1, if_neg h2, h8]
                      dsimp only
                      rw [if_neg hv, h9]
                      dsimp only
                      rw [h10, h11]
                      dsimp only
                      rw [h16, h17]

lemma seekHeader_exhaust (q r : List Packet) (h : seekHeader q = (none, none, r)) :
    r = [] := by
  rcases seekHeader_cases q with ⟨e, hh, r', he⟩ | ⟨h2, r', he⟩ | he
  · rw [he] at h; simp at h
  · rw [he] at h; simp at h
  · rw [he] at h
    have := congrArg (fun x => x.2.2) h
    simpa using this.symm

lemma seekTags_append (ser : Nat) (q₁ q₂ : List Packet) :
    seekTags ser (q₁ ++ q₂) =
      match seekTags ser q₁ with
      | (none, _) => seekTags ser q₂
      | (some t, r) => (some t, r ++ q₂) := by
  induction q₁ with
  | nil => simp [seekTags]
  | cons pkt rest ih =>
    simp only [List.cons_append, seekTags]
    by_cases h1 : pkt.serial ≠ ser
    · rw [if_pos h1, if_pos h1]
      exact ih
    · rw [if_neg h1, if_neg h1]
      by_cases h2 : opusTagsMagic.isPrefixOf pkt.data
      · rw [if_pos h2, if_pos h2]
        rfl
      · rw [if_neg h2, if_neg h2]
        exact ih

lemma seekTags_cases (ser : Nat) (q : List Packet) :
    (∃ t r, seekTags ser q = (some t, r)) ∨ seekTags ser q = (none, []) := by
  induction q with
  | nil => right; rfl
  | cons pkt rest ih =>
    by_cases h1 : pkt.serial ≠ ser
    · have he : seekTags ser (pkt :: rest) = seekTags ser rest := by
        simp only [seekTags]; rw [if_pos h1]
      rw [he]; exact ih
    · by_cases h2 : opusTagsMagic.isPrefixOf pkt.data
      · refine Or.inl ⟨pkt, rest, ?_⟩
        simp only [seekTags]; rw [if_neg h1, if_pos h2]
      · have he : seekTags ser (pkt :: rest) = seekTags ser rest := by
          simp only [seekTags]; rw [if_neg h1, if_neg h2]
        rw [he]; exact ih

lemma seekTags_exhaust (ser : Nat) (q r : List Packet)
    (h : seekTags ser q = (none, r)) : r = [] := by
  rcases seekTags_cases ser q with ⟨t, r', he⟩ | he
  · rw [he] at h; simp at h
  · rw [he] at h
    have := congrArg (fun x => x.2) h
    simpa using this.symm

end OpusMux

namespace OpusMux

/-- Queue processing composes across a split of the incoming packets,
provided the one-shot run reports no error: the first step reports no error
either, its result satisfies the state invariants, and processing the rest
afterwards lands in the same state. -/
lemma procQueue_comp (hdr : Option Header) (tags : Option Packet)
    (q P₁ P₂ : List Packet)
    (hinv1 : hdr = none → tags = none)
    (hinv2 : tags = none → q = [])
    (hok : (procQueue hdr tags (q ++ (P₁ ++ P₂))).1 = none) :
    (procQueue hdr tags (q ++ P₁)).1 = none ∧
    ((procQueue hdr tags (q ++ P₁)).2.1 = none →
      (procQueue hdr tags (q ++ P₁)).2.2.1 = none) ∧
    ((procQueue hdr tags (q ++ P₁)).2.2.1 = none →
      (procQueue hdr tags (q ++ P₁)).2.2.2 = []) ∧
    procQueue (procQueue hdr tags (q ++ P₁)).2.1
        (procQueue hdr tags (q ++ P₁)).2.2.1
        ((procQueue hdr tags (q ++ P₁)).2.2.2 ++ P₂) =
      procQueue hdr tags (q ++ (P₁ ++ P₂)) := by
  cases hdr with
  | some h =>
    cases tags with
    | some t =>
      refine ⟨rfl, ?_, ?_, ?_⟩
      · intro hcon; simp [procQueue] at hcon
      · intro hcon; simp [procQueue] at hcon
      · simp [procQueue, List.append_assoc]
    | none =>
      have hq : q = [] := hinv2 rfl
      subst hq
      simp only [List.nil_append]
      simp only [List.nil_append] at hok
      rcases hs : seekTags h.serial P₁ with ⟨t1, r1⟩
      cases t1 with
      | some t =>
        have hs2 : seekTags h.serial (P₁ ++ P₂) = (some t, r1 ++ P₂) := by
          rw [seekTags_append, hs]
        refine ⟨?_, ?_, ?_, ?_⟩
        · simp [procQueue, hs]
        · intro hcon; simp [procQueue, hs] at hcon
        · intro hcon; simp [procQueue, hs] at hcon
        · simp [procQueue, hs, hs2]
      | none =>
        have hr : r1 = [] := seekTags_exhaust h.serial P₁ r1 hs
        subst hr
        have hs2 : seekTags h.serial (P₁ ++ P₂) = seekTags h.serial P₂ := by
          rw [seekTags_append, hs]
        refine ⟨?_, ?_, ?_, ?_⟩
        · simp [procQueue, hs]
        · intro hcon; simp [procQueue, hs] at hcon
        · intro _; simp [procQueue, hs]
        · simp [procQueue, hs, hs2]
  | none =>
    have ht : tags = none := hinv1 rfl
    subst ht
    have hq : q = [] := hinv2 rfl
    subst hq
    simp only [List.nil_append]
    simp only [List.nil_append] at hok
    rcases hsh : seekHeader P₁ with ⟨e1, h1, r1⟩
    cases e1 with
    | some e =>
      exfalso
      have hsh2 : seekHeader (P₁ ++ P₂) = (some e, h1, r1 ++ P₂) := by
        rw [seekHeader_append, hsh]
      simp [procQueue, hsh2] at hok
    | none =>
      cases h1 with
      | some h =>
        have hsh2 : seekHeader (P₁ ++ P₂) = (none, some h, r1 ++ P₂) := by
          rw [seekHeader_append, hsh]
        rcases hs : seekTags h.serial r1 with ⟨t1, r2⟩
        cases t1 with
        | some t =>
          have hs2 : seekTags h.serial (r1 ++ P₂) = (some t, r2 ++ P₂) := by
            rw [seekTags_append, hs]
          refine ⟨?_, ?_, ?_, ?_⟩
          · simp [procQueue, hsh, hs]
          · intro hcon; simp [procQueue, hsh, hs] at hcon
          · intro hcon; simp [procQueue, hsh, hs] at hcon
          · simp [procQueue, hsh, hs, hsh2, hs2]
        | none =>
          have hr : r2 = [] := seekTags_exhaust h.serial r1 r2 hs
          subst hr
          have hs2 : seekTags h.serial (r1 ++ P₂) = seekTags h.serial P₂ := by
            rw [seekTags_append, hs]
          refine ⟨?_, ?_, ?_, ?_⟩
          · simp [procQueue, hsh, hs]
          · intro hcon; simp [procQueue, hsh, hs] at hcon
          · intro _; simp [procQueue, hsh, hs]
          · simp [procQueue, hsh, hs, hsh2, hs2]
      | none =>
        have hr : r1 = [] := seekHeader_exhaust P₁ r1 hsh
        subst hr
        have hsh2 : seekHeader (P₁ ++ P₂) = seekHeader P₂ := by
          rw [seekHeader_append, hsh]
        refine ⟨?_, ?_, ?_, ?_⟩
        · simp [procQueue, hsh]
        · intro _; simp [procQueue, hsh]
        · intro _; simp [procQueue, hsh]
        · simp [procQueue, hsh, hsh2]

end OpusMux

namespace OpusMux

/-- Pushing a list of chunks in order, keeping the final demuxer. -/
def pushChunks (d : Demuxer) (chunks : List (List Nat)) : Demuxer :=
  chunks.foldl (fun a c => (Demuxer.push a c).2) d

/-- Every push in the sequence returns `Ok(())`. -/
def ChunksOk : Demuxer → List (List Nat) → Prop
  | _, [] => True
  | d, c :: cs => (d.push c).1 = none ∧ ChunksOk (d.push c).2 cs

lemma push_nil (d : Demuxer) (e : List Nat) (hpe : PartialPage e)
    (hseg : d.stream.segment = 0) (hbuf : d.stream.buffer = e)
    (hinv1 : d.header = none → d.tags = none)
    (hinv2 : d.tags = none → d.queue = []) :
    d.push [] = (none, d) := by
  rw [push_eq_pushSplit d [] hinv1]
  have hst : d.stream.push [] = d.stream := by
    unfold Stream.push
    rw [List.append_nil]
  simp only [pushSplit, hst]
  rw [drivePages_stall hpe _ _ hbuf hseg]
  dsimp only
  rw [List.append_nil]
  cases hh : d.header with
  | some h =>
    cases ht : d.tags with
    | some t =>
      simp only [procQueue, hh, ht]
      rw [← hh, ← ht]
    | none =>
      have hq : d.queue = [] := hinv2 ht
      rw [hq]
      simp only [procQueue, hh, ht, seekTags]
      rw [← hq, ← hh, ← ht]
  | none =>
    have ht : d.tags = none := hinv1 hh
    have hq : d.queue = [] := hinv2 ht
    rw [hq]
    simp only [procQueue, hh, seekHeader]
    rw [← hq, ← hh, ← ht]

/-- Chunked pushes agree with the one-shot push, given: the demuxer's staging
buffer holds a partial page, its scan cursor is fresh, its recorded state
satisfies the reachability invariants, the total appended bytes complete the
buffer into whole well-formed pages plus a partial tail, and the one-shot push
succeeds. -/
lemma push_chunks_aux : ∀ (chunks : List (List Nat)) (ps : List PageImage)
    (e w : List Nat) (d : Demuxer),
    (∀ p ∈ ps, p.WF) → PartialPage e → PartialPage w →
    d.stream.segment = 0 → d.stream.buffer = e →
    (d.header = none → d.tags = none) →
    (d.tags = none → d.queue = []) →
    e ++ chunks.flatten = joinPages ps ++ w →
    (d.push chunks.flatten).1 = none →
    ChunksOk d chunks ∧ pushChunks d chunks = (d.push chunks.flatten).2 := by
  intro chunks
  induction chunks with
  | nil =>
    intro ps e w d hwf hpe hpw hseg hbuf hinv1 hinv2 htot hok
    have hnil : d.push ([] : List (List Nat)).flatten = (none, d) := by
      simpa using push_nil d e hpe hseg hbuf hinv1 hinv2
    refine ⟨trivial, ?_⟩
    rw [hnil]
    rfl
  | cons c cs ih =>
    intro ps e w d hwf hpe hpw hseg hbuf hinv1 hinv2 htot hok
    have htot' : (e ++ c) ++ cs.flatten = joinPages ps ++ w := by
      simpa [List.append_assoc] using htot
    obtain ⟨qs, rs, e', hps, hec, hpe', hrest⟩ :=
      split_pages ps (e ++ c) cs.flatten w hwf hpw htot'
    have hwq : ∀ p ∈ qs, p.WF := fun p hp => hwf p (by simp [hps, hp])
    have hwr : ∀ p ∈ rs, p.WF := fun p hp => hwf p (by simp [hps, hp])
    set st0 : Stream := d.stream.push c with hst0
    have hst0b : st0.buffer = joinPages qs ++ e' := by
      show d.stream.buffer ++ c = _
      rw [hbuf, hec]
    have hst0seg : st0.segment = 0 := hseg
    set dr := drivePages (st0.buffer.length + 1) st0 with hdrdef
    have hqlen : qs.length < st0.buffer.length + 1 := by
      have h1 := pages_le_join_length qs hwq
      have h2 : (joinPages qs).length ≤ st0.buffer.length := by
        rw [hst0b]; simp
      omega
    obtain ⟨_, hdrb, hdrseg⟩ :=
      drivePages_fresh qs (st0.buffer.length + 1) (st0.buffer.length + 1) st0 e' e'
        hwq hpe' hpe' hst0b hst0seg hqlen hqlen
    set pp2 := drivePages ((e' ++ cs.flatten).length + 1)
      { dr.2 with buffer := e' ++ cs.flatten } with hpp2def
    have hrlen : rs.length < (e' ++ cs.flatten).length + 1 := by
      have h1 := pages_le_join_length rs hwr
      have h2 : (joinPages rs).length ≤ (e' ++ cs.flatten).length := by
        rw [hrest]; simp
      omega
    set st1 : Stream := d.stream.push (c ++ cs.flatten) with hst1
    have hst1e : st1 = { st0 with buffer := st0.buffer ++ cs.flatten } := by
      show ({ d.stream with buffer := d.stream.buffer ++ (c ++ cs.flatten) } : Stream) = _
      rw [← List.append_assoc]
      rfl
    have htotlen : qs.length + rs.length < st1.buffer.length + 1 := by
      have h1 := pages_le_join_length ps hwf
      have h2 : (joinPages ps).length ≤ st1.buffer.length := by
        show _ ≤ (d.stream.buffer ++ (c ++ cs.flatten)).length
        rw [hbuf]
        have : (e ++ (c ++ cs.flatten)).length = (joinPages ps ++ w).length := by
          rw [← htot]; simp [List.append_assoc]
        simp at this ⊢
        omega
      have h3 : qs.length + rs.length = ps.length := by
        rw [hps]; simp
      omega
    have hsplit := drivePages_split qs rs e' w cs.flatten
      (st1.buffer.length + 1) (st0.buffer.length + 1) ((e' ++ cs.flatten).length + 1)
      st0 hwq hwr hpe' hpw hst0b hst0seg hrest hqlen hrlen htotlen
    have hDR : drivePages (st1.buffer.length + 1) st1 = (dr.1 ++ pp2.1, pp2.2) := by
      rw [show drivePages (st1.buffer.length + 1) st1 =
        drivePages (st1.buffer.length + 1) { st0 with buffer := st0.buffer ++ cs.flatten }
        from by rw [← hst1e]]
      rw [hsplit]
    set r1 := procQueue d.header d.tags (d.queue ++ dr.1) with hr1def
    have hpush1 : d.push c = (r1.1,
        { stream := dr.2, queue := r1.2.2.2, header := r1.2.1, tags := r1.2.2.1 }) := by
      rw [push_eq_pushSplit d c hinv1]
      rfl
    have hokP : (procQueue d.header d.tags (d.queue ++ (dr.1 ++ pp2.1))).1 = none := by
      have h1 : d.push (c :: cs).flatten = d.push (c ++ cs.flatten) := by
        simp
      rw [h1, push_eq_pushSplit d (c ++ cs.flatten) hinv1] at hok
      simp only [pushSplit, ← hst1] at hok
      rw [hDR] at hok
      exact hok
    obtain ⟨hok1, hinv1', hinv2', hcompose⟩ :=
      procQueue_comp d.header d.tags d.queue dr.1 pp2.1 hinv1 hinv2 hokP
    set d2 : Demuxer :=
      { stream := dr.2, queue := r1.2.2.2, header := r1.2.1, tags := r1.2.2.1 }
      with hd2def
    have hst2 : d2.stream.push cs.flatten = { dr.2 with buffer := e' ++ cs.flatten } := by
      show ({ dr.2 with buffer := dr.2.buffer ++ cs.flatten } : Stream) = _
      rw [hdrb]
    have hpush2 : d2.push cs.flatten = ((procQueue r1.2.1 r1.2.2.1 (r1.2.2.2 ++ pp2.1)).1,
        { stream := pp2.2,
          queue := (procQueue r1.2.1 r1.2.2.1 (r1.2.2.2 ++ pp2.1)).2.2.2,
          header := (procQueue r1.2.1 r1.2.2.1 (r1.2.2.2 ++ pp2.1)).2.1,
          tags := (procQueue r1.2.1 r1.2.2.1 (r1.2.2.2 ++ pp2.1)).2.2.1 }) := by
      rw [push_eq_pushSplit d2 cs.flatten hinv1']
      simp only [pushSplit, hst2]
    have hok2 : (d2.push cs.flatten).1 = none := by
      rw [hpush2]
      show (procQueue r1.2.1 r1.2.2.1 (r1.2.2.2 ++ pp2.1)).1 = none
      rw [hcompose]
      exact hokP
    obtain ⟨hcok, hceq⟩ := ih rs e' w d2 hwr hpe' hpw hdrseg hdrb hinv1' hinv2'
      hrest hok2
    constructor
    · refine ⟨?_, ?_⟩
      · rw [hpush1]
        exact hok1
      · rw [hpush1]
        exact hcok
    · have hfold : pushChunks d (c :: cs) = pushChunks (d.push c).2 cs := by
        simp [pushChunks]
      rw [hfold, hpush1]
      show pushChunks d2 cs = _
      rw [hceq, hpush2]
      have h1 : d.push (c :: cs).flatten = d.push (c ++ cs.flatten) := by
        simp
      rw [h1, push_eq_pushSplit d (c ++ cs.flatten) hinv1]
      simp only [pushSplit, ← hst1]
      rw [hDR]
      rw [hcompose]

end OpusMux

namespace OpusMux

instance (p : PageImage) : Decidable p.WF := by
  unfold PageImage.WF
  infer_instance

/-- Page 1 of the spec section 8 scenario as a structured page image. -/
def specImg1 : PageImage :=
  { flags := 2, granule := z8, serial4 := [1, 0, 0, 0], seq4 := [0, 0, 0, 0],
    chk4 := [0, 0, 0, 0], lacing := [19],
    payload := opusHeadMagic ++ [0x00, 0x02, 0x38, 0x01, 0, 0, 0, 0, 0x00, 0x00, 0x00] }

/-- Page 2 of the spec section 8 scenario as a structured page image. -/
def specImg2 : PageImage :=
  { flags := 0, granule := z8, serial4 := [1, 0, 0, 0], seq4 := [1, 0, 0, 0],
    chk4 := [0, 0, 0, 0], lacing := [16],
    payload := opusTagsMagic ++ [0, 0, 0, 0, 0, 0, 0, 0] }

/-- Page 3 of the spec section 8 scenario as a structured page image. -/
def specImg3 : PageImage :=
  { flags := 0, granule := z8, serial4 := [1, 0, 0, 0], seq4 := [2, 0, 0, 0],
    chk4 := [0, 0, 0, 0], lacing := [5], payload := [1, 2, 3, 4, 5] }

/-- The three spec pages. -/
def c2imgs : List PageImage := [specImg1, specImg2, specImg3]

/-- The spec scenario bytes cut at an offset inside page 2. -/
def c2chunks : List (List Nat) :=
  [specPage1 ++ specPage2.take 10, specPage2.drop 10 ++ specPage3]

/-- C2: for every well-formed container byte sequence (a concatenation of
structurally well-formed pages) on which a single push succeeds, pushing it
as chunks cut at arbitrary byte offsets succeeds at every step and produces
the same final demuxer state — hence the same header(), the same tags()
bytes, and the same ordered packet sequence from next() — as the single
push of the whole sequence. -/
theorem c2_chunked_push_equiv (chunks : List (List Nat)) (ps : List PageImage)
    (hwf : ∀ p ∈ ps, p.WF)
    (hdata : chunks.flatten = joinPages ps)
    (hok : (Demuxer.new.push chunks.flatten).1 = none) :
    ChunksOk Demuxer.new chunks ∧
    pushChunks Demuxer.new chunks = (Demuxer.new.push chunks.flatten).2 :=
  push_chunks_aux chunks ps [] [] Demuxer.new hwf (Or.inl rfl) (Or.inl rfl)
    rfl rfl (fun _ => rfl) (fun _ => rfl) (by simpa using hdata) hok

set_option maxRecDepth 1000000 in
/-- C2 witness: the spec section 8 container cut mid-page-2 into two chunks. -/
theorem c2_chunked_push_equiv_witness :
    (∀ p ∈ c2imgs, p.WF) ∧
    c2chunks.flatten = joinPages c2imgs ∧
    (Demuxer.new.push c2chunks.flatten).1 = none ∧
    (ChunksOk Demuxer.new c2chunks ∧
      pushChunks Demuxer.new c2chunks = (Demuxer.new.push c2chunks.flatten).2) :=
  ⟨by decide, by decide, by decide,
    c2_chunked_push_equiv c2chunks c2imgs (by decide) (by decide) (by decide)⟩

end OpusMux
